import Mathlib

attribute [local semireducible] Rat.mul Rat.add Rat.sub Rat.inv Rat.ofScientific

/-
  Verification of the scheduling / compression engine of the M-A-timeline
  repository (src/src/lib/logic.ts).

  Embedding conventions:
  * A calendar date is an `Int`: the number of days since 1970-01-01, which
    was a Thursday.  Hence `d % 7 = 0` is Thursday, `2` Saturday, `3` Sunday,
    `4` Monday (`Int.emod` is nonnegative for the positive modulus 7).
    `addDays` from date-fns is integer addition.
  * JS floating point numbers (`durationWeeks`, `compressionRatio`) are
    embedded as rationals; `Math.floor` is `Int.floor`.
  * The `date-holidays` library is abstracted as a finite table
    `Cal : String → List Int` giving, per jurisdiction code, the days that
    are public holidays.  Invalid codes simply map to holiday-free tables,
    which matches the try/catch swallowing in `isHoliday`.
  * The day-by-day `while` loops of the source advance by one day at a time;
    they are embedded as structural recursions on an explicit fuel that is
    provably large enough to reach the next business day (a finite holiday
    table cannot cover all weekdays beyond its maximum entry), so every
    definition is executable by kernel reduction.
-/

namespace MAT

/-- Holiday table: per jurisdiction code, the list of holiday days. -/
abbrev Cal := String → List Int

/-- `isWeekend` from date-fns: Saturday or Sunday (epoch day 0 = Thursday). -/
def isWeekendDay (d : Int) : Bool :=
  d % 7 == 2 || d % 7 == 3

/-- `isHoliday` from logic.ts: the date is a holiday in ANY of the selected
countries (invalid codes contribute no holidays). -/
def isHolidayDay (cal : Cal) (cs : List String) (d : Int) : Bool :=
  cs.any (fun c => (cal c).contains d)

/-- A working day: neither weekend nor holiday in any selected country. -/
def isBusinessDay (cal : Cal) (cs : List String) (d : Int) : Bool :=
  !isWeekendDay d && !isHolidayDay cal cs d

/-- An upper bound for every holiday entry relevant to `cs` (and at least 0). -/
def holBound (cal : Cal) (cs : List String) : Int :=
  ((cs.map cal).flatten).foldl (fun a b => max a b) 0

/-- Fuel that provably suffices for the forward business-day scan from `d`. -/
def rollFuel (cal : Cal) (cs : List String) (d : Int) : Nat :=
  (holBound cal cs + 1 - d).toNat + 7

/-- Day-by-day forward scan: `while (isWeekend(c) || isHoliday(c)) c = addDays(c, 1)`. -/
def nextBusinessAux (cal : Cal) (cs : List String) : Nat → Int → Int
  | 0, d => d
  | f + 1, d => if isBusinessDay cal cs d then d else nextBusinessAux cal cs f (d + 1)

/-- First business day `≥ d` (the result of the source's roll-forward loop). -/
def nextBusinessDay (cal : Cal) (cs : List String) (d : Int) : Int :=
  nextBusinessAux cal cs (rollFuel cal cs d) d

/-- The duration loop of `calculateSchedule`: consume `k` working days, moving
one calendar day at a time (`current = addDays(current, 1); if nonworking
continue; daysToAdd--`). -/
def addWorkDays (cal : Cal) (cs : List String) : Nat → Int → Int
  | 0, d => d
  | k + 1, d => addWorkDays cal cs k (nextBusinessDay cal cs (d + 1))

/-- Counting loop of `getBusinessDays`, unrolled over the day count. -/
def bdAux (cal : Cal) (cs : List String) : Nat → Int → Nat
  | 0, _ => 0
  | n + 1, d => (if isBusinessDay cal cs d then 1 else 0) + bdAux cal cs n (d + 1)

/-- `getBusinessDays(start, end, countries)`: working days in `[start, end)`. -/
def getBusinessDays (cal : Cal) (cs : List String) (start endD : Int) : Nat :=
  bdAux cal cs (endD - start).toNat start

/-- The `TaskType` union of logic.ts. -/
inductive TaskType where
  | Standard
  | Milestone
  | Bottleneck
  | KeyDecision
  | ExternalDependency
deriving DecidableEq, Repr

/-- The `Task` interface of logic.ts.  JS `undefined` on the optional fields
is `none`; dates are `Int` day numbers; floats are rationals. -/
structure Task where
  id : String
  name : String
  phase : String
  durationWeeks : ℚ
  originalDurationWeeks : ℚ
  compressionRatio : ℚ
  predecessors : List String
  type : TaskType
  manualStartOffset : Option Int := none
  serialNumber : Option Nat := none
  computedStart : Option Int := none
  computedEnd : Option Int := none
deriving DecidableEq, Repr

/-- The `Project` interface of logic.ts. -/
structure Project where
  name : String
  startDate : Int
  country : List String
  tasks : List Task
  vddEnabled : Bool
deriving DecidableEq, Repr

/-- Substring check over the character list (JS `String.prototype.includes`). -/
def charsStartWith : List Char → List Char → Bool
  | _, [] => true
  | [], _ :: _ => false
  | c :: cs, d :: ds => c == d && charsStartWith cs ds

def charsContain : List Char → List Char → Bool
  | [], pat => pat.isEmpty
  | c :: cs, pat => charsStartWith (c :: cs) pat || charsContain cs pat

def strContains (s pat : String) : Bool := charsContain s.data pat.data

/-- The reset step of `calculateSchedule`: clear computed dates and assign
1-based serial numbers by list position. -/
def resetTasksFrom : Nat → List Task → List Task
  | _, [] => []
  | i, t :: rest =>
      { t with serialNumber := some (i + 1), computedStart := none, computedEnd := none } ::
        resetTasksFrom (i + 1) rest

def resetTasks (ts : List Task) : List Task := resetTasksFrom 0 ts

/-- `tasksById.get`: the Map is built by inserting tasks in list order, so a
duplicated id resolves to the LAST task in the list carrying it. -/
def lookupLast : List Task → String → Option Task
  | [], _ => none
  | t :: rest, pid =>
      match lookupLast rest pid with
      | some q => some q
      | none => if t.id == pid then some t else none

/-- The predecessor scan of `calculateSchedule`: returns `none` when some
existing predecessor is not yet processed (ready = false), otherwise the
running maximum of predecessor end dates (seeded with the project start).
A predecessor id absent from the task list is skipped (treated satisfied). -/
def checkPreds (ts : List Task) (processed : List String) : List String → Int → Option Int
  | [], acc => some acc
  | pid :: rest, acc =>
      match lookupLast ts pid with
      | none => checkPreds ts processed rest acc
      | some pred =>
          if processed.contains pred.id ∧ pred.computedEnd.isSome then
            match pred.computedEnd with
            | some e => checkPreds ts processed rest (if acc < e then e else acc)
            | none => checkPreds ts processed rest acc
          else none

/-- Scheduling a ready task: apply the manual offset, roll forward to a
business day, then either copy the start (zero duration) or walk
`floor(durationWeeks * 5)` working days forward. -/
def scheduleTask (cal : Cal) (cs : List String) (t : Task) (maxPredEnd : Int) : Task :=
  let c1 : Int :=
    match t.manualStartOffset with
    | some k => if k ≠ 0 then maxPredEnd + k else maxPredEnd
    | none => maxPredEnd
  let s := nextBusinessDay cal cs c1
  let e :=
    if t.durationWeeks = 0 then s
    else addWorkDays cal cs (⌊t.durationWeeks * 5⌋).toNat s
  { t with computedStart := some s, computedEnd := some e }

/-- One full pass of the `for (const task of project.tasks)` loop.  `pre` is
the already-visited portion of the list (tasks are mutated in place, so
predecessor lookups see the updated values), `suf` the remainder. -/
def passAux (cal : Cal) (cs : List String) (start : Int) :
    List Task → List Task → List String → Bool → List Task × List String × Bool
  | pre, [], processed, progress => (pre, processed, progress)
  | pre, t :: rest, processed, progress =>
      if processed.contains t.id then
        passAux cal cs start (pre ++ [t]) rest processed progress
      else
        match checkPreds (pre ++ t :: rest) processed t.predecessors start with
        | none => passAux cal cs start (pre ++ [t]) rest processed progress
        | some m =>
            passAux cal cs start (pre ++ [scheduleTask cal cs t m]) rest
              (t.id :: processed) true

/-- The outer `while (processed.size < tasks.length)` loop.  One unit of fuel
is one pass; exhausted fuel is exactly the `iterations > maxIterations`
cycle-detection break of the source. -/
def schedLoop (cal : Cal) (cs : List String) (start : Int) :
    Nat → List Task → List String → List Task
  | fuel, ts, processed =>
      if processed.length < ts.length then
        match fuel with
        | 0 => ts
        | f + 1 =>
            let r := passAux cal cs start [] ts processed false
            if r.2.2 then schedLoop cal cs start f r.1 r.2.1 else r.1
      else ts

/-- `calculateSchedule` with an explicit pass budget (the source fixes it to
`3 × tasks.length`; see `calculateSchedule`). -/
def calculateScheduleFuel (cal : Cal) (fuel : Nat) (p : Project) : Project :=
  { p with tasks := schedLoop cal p.country p.startDate fuel (resetTasks p.tasks) [] }

/-- `calculateSchedule(project)` of logic.ts. -/
def calculateSchedule (cal : Cal) (p : Project) : Project :=
  calculateScheduleFuel cal (p.tasks.length * 3) p

/-- The fixed VDD subgraph inserted by `injectVddTasks`. -/
def vddTasks : List Task :=
  [ { id := "VDD.1", name := "Selection of VDD Advisors (Financial, Legal, Tax)",
      phase := "Phase 1: Preparation", durationWeeks := 2, originalDurationWeeks := 2,
      compressionRatio := 1, predecessors := ["T1.1"], type := TaskType.KeyDecision },
    { id := "VDD.2", name := "Financial VDD Execution",
      phase := "Phase 1: Preparation", durationWeeks := 4, originalDurationWeeks := 4,
      compressionRatio := 1, predecessors := ["VDD.1"], type := TaskType.Standard },
    { id := "VDD.3", name := "Tax & Legal VDD Execution",
      phase := "Phase 1: Preparation", durationWeeks := 4, originalDurationWeeks := 4,
      compressionRatio := 1, predecessors := ["VDD.1"], type := TaskType.Standard },
    { id := "VDD.4", name := "VDD Reports Draft Review",
      phase := "Phase 1: Preparation", durationWeeks := 2, originalDurationWeeks := 2,
      compressionRatio := 1, predecessors := ["VDD.2", "VDD.3"], type := TaskType.Bottleneck } ]

/-- Insertion index of `injectVddTasks`: after the first task (in list order)
whose id is T1.1, F1.1 or D1.1, else at the front. -/
def vddInsertIdx (ts : List Task) : Nat :=
  match ts.findIdx? (fun t => t.id == "T1.1" || t.id == "F1.1" || t.id == "D1.1") with
  | some i => i + 1
  | none => 0

/-- The "Shorten Phase 3" step: the FIRST task whose name contains the marker
substring, if longer than 3 weeks, loses 2 weeks (baseline too) and gets a
suffix appended to its name. -/
def shortenPhase3 : List Task → List Task
  | [] => []
  | t :: rest =>
      if strContains t.name ("Confirmatory Due Diligence") then
        if 3 < t.durationWeeks then
          { t with durationWeeks := t.durationWeeks - 2,
                   originalDurationWeeks := t.durationWeeks - 2,
                   name := t.name ++ " (Shortened due to VDD)" } :: rest
        else t :: rest
      else t :: shortenPhase3 rest

/-- `injectVddTasks(project)` of logic.ts. -/
def injectVddTasks (p : Project) : Project :=
  if !p.vddEnabled then p
  else if p.tasks.any (fun t => t.id == "VDD.1") then p
  else
    let idx := vddInsertIdx p.tasks
    let newTasks := p.tasks.take idx ++ vddTasks ++ p.tasks.drop idx
    { p with tasks := shortenPhase3 newTasks }

/-- Block-1 membership of the compression engine (phase-label heuristic). -/
def phaseBlock1 (t : Task) : Bool :=
  strContains t.phase ("Phase 1") || strContains t.phase ("Preparation") ||
    strContains t.phase ("Kick-off")

/-- Step 1 of `compressSchedule`: restore baseline durations (only for tasks
with a positive baseline). -/
def resetDurations (ts : List Task) : List Task :=
  ts.map fun t =>
    if 0 < t.originalDurationWeeks then
      { t with durationWeeks := t.originalDurationWeeks, compressionRatio := 1 }
    else t

/-- Uniform scaling of one block: every member task with positive current
duration gets `durationWeeks = originalDurationWeeks × ratio`. -/
def scaleBlock (member : Task → Bool) (ratio : ℚ) (ts : List Task) : List Task :=
  ts.map fun t =>
    if member t ∧ 0 < t.durationWeeks then
      { t with durationWeeks := t.originalDurationWeeks * ratio, compressionRatio := ratio }
    else t

/-- Latest baseline `computedEnd` among Block-1 tasks (seeded with the project
start), read from the freshly computed snapshot schedule. -/
def block1MaxEnd (cal : Cal) (P : Project) : Int :=
  (P.tasks.filter phaseBlock1).foldl
    (fun acc t =>
      match (calculateSchedule cal P).tasks.find? (fun x => x.id == t.id) with
      | some tt =>
          match tt.computedEnd with
          | some e => if acc < e then e else acc
          | none => acc
      | none => acc)
    P.startDate

def block1Available (cal : Cal) (P : Project) (m : Int) : Nat :=
  getBusinessDays cal P.country P.startDate m

def block1Standard (cal : Cal) (P : Project) : Nat :=
  getBusinessDays cal P.country P.startDate (block1MaxEnd cal P)

/-- Block-1 compression (`marketingDate` supplied). -/
def block1Apply (cal : Cal) (P : Project) (m : Int) : Project :=
  if 0 < block1Standard cal P ∧ 0 < block1Available cal P m then
    { P with tasks := (scaleBlock phaseBlock1
        ((block1Available cal P m : ℚ) / (block1Standard cal P : ℚ)) P.tasks) }
  else P

/-- Earliest `computedStart` (sentinel `none` standing for the untouched
`signingDate` object) and latest `computedEnd` (seeded `new Date(0)`) among
Block-2 tasks in the snapshot schedule. -/
def block2Stats (cal : Cal) (P : Project) : Option Int × Int :=
  (P.tasks.filter (fun t => !phaseBlock1 t)).foldl
    (fun acc t =>
      match (calculateSchedule cal P).tasks.find? (fun x => x.id == t.id) with
      | some tt =>
          let mn :=
            match tt.computedStart with
            | some st =>
                match acc.1 with
                | none => some st
                | some cur => if st < cur then some st else some cur
            | none => acc.1
          let mx :=
            match tt.computedEnd with
            | some e => if acc.2 < e then e else acc.2
            | none => acc.2
          (mn, mx)
      | none => acc)
    (none, 0)

def block2MinStart (cal : Cal) (P : Project) : Option Int := (block2Stats cal P).1

def block2MaxEnd (cal : Cal) (P : Project) : Int := (block2Stats cal P).2

/-- Block-2 compression once the earliest Block-2 start is known. -/
def block2ApplyWith (cal : Cal) (P : Project) (s minStart : Int) : Project :=
  if minStart < s then
    if 0 < getBusinessDays cal P.country minStart (block2MaxEnd cal P) ∧
        0 < getBusinessDays cal P.country minStart s then
      { P with tasks := (scaleBlock (fun t => !phaseBlock1 t)
          ((getBusinessDays cal P.country minStart s : ℚ) /
            (getBusinessDays cal P.country minStart (block2MaxEnd cal P) : ℚ)) P.tasks) }
    else P
  else P

/-- Block-2 compression (`signingDate` supplied); the `none` sentinel is the
`minStartBlock2 === signingDate` identity check of the source. -/
def block2Apply (cal : Cal) (P : Project) (s : Int) : Project :=
  match block2MinStart cal P with
  | none => P
  | some minStart => block2ApplyWith cal P s minStart

/-- `compressSchedule` after its duration reset. -/
def compressCore (cal : Cal) (P : Project) (m s : Option Int) : Project :=
  match m, s with
  | none, none => calculateSchedule cal P
  | _, _ =>
      let P1 := match m with | some md => block1Apply cal P md | none => P
      let P2 := match s with | some sd => block2Apply cal P1 sd | none => P1
      calculateSchedule cal P2

/-- `compressSchedule(project, marketingDate?, signingDate?)` of logic.ts. -/
def compressSchedule (cal : Cal) (p : Project) (m s : Option Int) : Project :=
  compressCore cal { p with tasks := resetDurations p.tasks } m s

/-- The part of a task the Scheduler never writes: everything except the
computed fields and the serial number. -/
def Task.core (t : Task) : Task :=
  { t with serialNumber := none, computedStart := none, computedEnd := none }

/-- Correctness shape of one task after scheduling: computed fields are set in
pairs; a set start is a business day and the end is the work-day walk from it. -/
def schedOk (cal : Cal) (cs : List String) (t : Task) : Prop :=
  match t.computedStart, t.computedEnd with
  | none, none => True
  | some s, some e =>
      isBusinessDay cal cs s = true ∧
      e = (if t.durationWeeks = 0 then s
           else addWorkDays cal cs (⌊t.durationWeeks * 5⌋).toNat s)
  | _, _ => False

/-- Nonnegative manual offset (hypothesis under which predecessor ordering
holds; the source applies the offset before the business-day roll, so a
negative lag can precede the predecessor end). -/
def offsetOk (t : Task) : Prop :=
  ∀ k : Int, t.manualStartOffset = some k → 0 ≤ k

/-- Loop invariant of the Scheduler used for the predecessor-ordering
invariant: computed fields come in pairs and only for processed tasks, at
most one end date per id, and every scheduled task starts no earlier than
every scheduled end date of each of its predecessor ids (which are
themselves scheduled whenever they exist at all). -/
def InvC1 (ts : List Task) (pr : List String) : Prop :=
  (∀ t ∈ ts, (t.computedStart = none ↔ t.computedEnd = none))
  ∧ (∀ t ∈ ts, t.computedEnd ≠ none → t.id ∈ pr)
  ∧ (∀ t u : Task, t ∈ ts → u ∈ ts → t.id = u.id → t.computedEnd ≠ none →
       u.computedEnd ≠ none → t.computedEnd = u.computedEnd)
  ∧ (∀ u ∈ ts, ∀ s : Int, u.computedStart = some s → ∀ pid ∈ u.predecessors,
       (∀ q ∈ ts, q.id = pid → ∀ e : Int, q.computedEnd = some e → e ≤ s)
       ∧ (∀ q ∈ ts, q.id = pid → ∃ q2 ∈ ts, q2.id = pid ∧ q2.computedEnd ≠ none))

/-- The fields of a task that neither the Scheduler nor the Compression
Engine ever writes (used to state preservation lemmas). -/
structure TaskStat where
  id : String
  name : String
  phase : String
  odw : ℚ
  preds : List String
  ty : TaskType
  offset : Option Int
deriving DecidableEq, Repr

def Task.stat (t : Task) : TaskStat :=
  ⟨t.id, t.name, t.phase, t.originalDurationWeeks, t.predecessors, t.type,
    t.manualStartOffset⟩

/-- The canonical task a compression reset produces for a given static part
(positive baseline case): baseline duration, ratio 1, computed fields clear. -/
def statTask (st : TaskStat) : Task :=
  { id := st.id, name := st.name, phase := st.phase, durationWeeks := st.odw,
    originalDurationWeeks := st.odw, compressionRatio := 1,
    predecessors := st.preds, type := st.ty, manualStartOffset := st.offset,
    serialNumber := none, computedStart := none, computedEnd := none }

/-- Two projects that the whole engine cannot distinguish: equal everywhere
except possibly in computed fields and serial numbers of their tasks. -/
def ProjEquiv (P1 P2 : Project) : Prop :=
  P1.name = P2.name ∧ P1.startDate = P2.startDate ∧ P1.country = P2.country ∧
    P1.vddEnabled = P2.vddEnabled ∧ P1.tasks.map Task.core = P2.tasks.map Task.core

/-- Concrete fixtures used to instantiate the theorems below. -/
def cal0 : Cal := fun _ => []

def calH : Cal := fun c => if c == "US" then [0] else []

def mkTask (id : String) (dur : ℚ) (preds : List String) : Task :=
  { id := id, name := id, phase := "Phase 1", durationWeeks := dur,
    originalDurationWeeks := dur, compressionRatio := 1, predecessors := preds,
    type := TaskType.Standard }

def pChain : Project :=
  { name := "P", startDate := 0, country := ["US"],
    tasks := [mkTask "A" 1 [], mkTask "B" 2 ["A"]], vddEnabled := false }

def pCycle : Project :=
  { name := "P", startDate := 4, country := [],
    tasks := [mkTask "A" 1 ["B"], mkTask "B" 1 ["A"]], vddEnabled := false }

def pNegOff : Project :=
  { name := "P", startDate := 11, country := [],
    tasks := [mkTask "A" 0 [],
              { mkTask "B" 0 ["A"] with manualStartOffset := some (-7) }],
    vddEnabled := false }

def pOrigZero : Project :=
  { name := "P", startDate := 4, country := [],
    tasks := [{ mkTask "X" 1 [] with
                originalDurationWeeks := 0,
                compressionRatio := 1/2 }],
    vddEnabled := false }

def pIdemBad : Project :=
  { name := "P", startDate := 4, country := [],
    tasks := [{ mkTask "X" 1 [] with originalDurationWeeks := 0 },
              mkTask "Y" 2 ["X"]],
    vddEnabled := false }

def pVddF : Project :=
  { name := "P", startDate := 0, country := [], vddEnabled := true,
    tasks := [{ mkTask "F" 1 [] with id := "F1.1" }] }

def pVddT : Project :=
  { name := "P", startDate := 0, country := [], vddEnabled := true,
    tasks := [{ mkTask "T" 1 [] with id := "T1.1" }] }

def pNoTasks : Project :=
  { name := "E", startDate := 4, country := [], tasks := [], vddEnabled := false }

theorem foldl_max_le_init (l : List Int) (b : Int) : b ≤ l.foldl (fun a x => max a x) b := by
  induction l generalizing b with
  | nil => exact le_refl b
  | cons h t ih => exact le_trans (le_max_left b h) (ih (max b h))

theorem foldl_max_le_of_mem :
    ∀ (l : List Int) (b x : Int), x ∈ l → x ≤ l.foldl (fun a y => max a y) b := by
  intro l
  induction l with
  | nil => intro b x hx; cases hx
  | cons h t ih =>
    intro b x hx
    rcases List.mem_cons.mp hx with rfl | hmem
    · exact le_trans (le_max_right b x) (foldl_max_le_init t (max b x))
    · exact ih (max b h) x hmem

theorem holiday_le_holBound (cal : Cal) (cs : List String) (c : String) (hc : c ∈ cs)
    (x : Int) (hx : x ∈ cal c) : x ≤ holBound cal cs := by
  apply foldl_max_le_of_mem
  exact List.mem_flatten.mpr ⟨cal c, List.mem_map.mpr ⟨c, hc, rfl⟩, hx⟩

theorem contains_iff_mem (l : List Int) (a : Int) : l.contains a = true ↔ a ∈ l := by
  induction l with
  | nil => simp [List.contains]
  | cons h t ih =>
    simp only [List.contains, List.elem_cons]
    constructor
    · intro hx
      by_cases hah : a = h
      · exact hah ▸ List.mem_cons_self a t
      · have : (a == h) = false := beq_false_of_ne hah
        rw [this] at hx
        exact List.mem_cons_of_mem h (ih.mp hx)
    · intro hx
      rcases List.mem_cons.mp hx with rfl | hmem
      · simp
      · by_cases hah : a = h
        · simp [hah]
        · have : (a == h) = false := beq_false_of_ne hah
          rw [this]
          exact ih.mpr hmem

theorem isHolidayDay_true_iff (cal : Cal) (cs : List String) (d : Int) :
    isHolidayDay cal cs d = true ↔ ∃ c ∈ cs, d ∈ cal c := by
  unfold isHolidayDay
  rw [List.any_eq_true]
  constructor
  · rintro ⟨c, hc, hcon⟩
    exact ⟨c, hc, (contains_iff_mem _ _).mp hcon⟩
  · rintro ⟨c, hc, hmem⟩
    exact ⟨c, hc, (contains_iff_mem _ _).mpr hmem⟩

theorem isBusinessDay_of_monday_late (cal : Cal) (cs : List String) (t : Int)
    (hm : t % 7 = 4) (hl : holBound cal cs < t) : isBusinessDay cal cs t = true := by
  unfold isBusinessDay
  have hw : isWeekendDay t = false := by
    unfold isWeekendDay
    simp only [Bool.or_eq_false_iff, beq_eq_false_iff_ne]
    omega
  have hh : isHolidayDay cal cs t = false := by
    by_contra hcon
    have : isHolidayDay cal cs t = true := by
      cases h : isHolidayDay cal cs t
      · exact absurd h hcon
      · rfl
    obtain ⟨c, hc, hmem⟩ := (isHolidayDay_true_iff cal cs t).mp this
    have := holiday_le_holBound cal cs c hc t hmem
    omega
  rw [hw, hh]
  rfl

theorem exists_business_in_fuel (cal : Cal) (cs : List String) (d : Int) :
    ∃ n : Nat, n < rollFuel cal cs d ∧ isBusinessDay cal cs (d + n) = true := by
  set M := holBound cal cs with hM
  set b := max d (M + 1) with hb
  set t := b + (4 - b) % 7 with ht
  have hb1 : d ≤ b := le_max_left _ _
  have hb2 : M + 1 ≤ b := le_max_right _ _
  have hr0 : 0 ≤ (4 - b) % 7 := Int.emod_nonneg _ (by norm_num)
  have hr7 : (4 - b) % 7 < 7 := Int.emod_lt_of_pos _ (by norm_num)
  have htmod : t % 7 = 4 := by
    have h1 : (4 - b) % 7 % 7 = (4 - b) % 7 := Int.emod_emod_of_dvd _ dvd_rfl
    omega
  have htd : d ≤ t := by omega
  refine ⟨(t - d).toNat, ?_, ?_⟩
  · unfold rollFuel
    omega
  · have : d + ((t - d).toNat : Int) = t := by omega
    rw [this]
    exact isBusinessDay_of_monday_late cal cs t htmod (by omega)

theorem nextBusinessAux_ge (cal : Cal) (cs : List String) :
    ∀ (f : Nat) (d : Int), d ≤ nextBusinessAux cal cs f d := by
  intro f
  induction f with
  | zero => intro d; exact le_refl d
  | succ f ih =>
    intro d
    unfold nextBusinessAux
    by_cases h : isBusinessDay cal cs d = true
    · rw [if_pos h]
    · rw [if_neg h]
      exact le_trans (by omega) (ih (d + 1))

theorem nextBusinessAux_not_business_below (cal : Cal) (cs : List String) :
    ∀ (f : Nat) (d e : Int), d ≤ e → e < nextBusinessAux cal cs f d →
      isBusinessDay cal cs e = false := by
  intro f
  induction f with
  | zero =>
    intro d e hde hlt
    unfold nextBusinessAux at hlt
    omega
  | succ f ih =>
    intro d e hde hlt
    unfold nextBusinessAux at hlt
    by_cases h : isBusinessDay cal cs d = true
    · rw [if_pos h] at hlt; omega
    · rw [if_neg h] at hlt
      rcases eq_or_lt_of_le hde with heq | hdlt
      · subst heq
        simpa using h
      · exact ih (d + 1) e (by omega) hlt

theorem nextBusinessAux_business (cal : Cal) (cs : List String) :
    ∀ (f : Nat) (d : Int), (∃ n : Nat, n < f ∧ isBusinessDay cal cs (d + n) = true) →
      isBusinessDay cal cs (nextBusinessAux cal cs f d) = true := by
  intro f
  induction f with
  | zero =>
    rintro d ⟨n, hn, _⟩
    omega
  | succ f ih =>
    rintro d ⟨n, hn, hb⟩
    unfold nextBusinessAux
    by_cases h : isBusinessDay cal cs d = true
    · rw [if_pos h]; exact h
    · rw [if_neg h]
      apply ih
      have hn0 : n ≠ 0 := by
        rintro rfl
        simp only [Nat.cast_zero, add_zero] at hb
        exact h hb
      refine ⟨n - 1, by omega, ?_⟩
      have : d + 1 + ((n - 1 : Nat) : Int) = d + n := by omega
      rw [this]
      exact hb

theorem nextBusinessDay_business (cal : Cal) (cs : List String) (d : Int) :
    isBusinessDay cal cs (nextBusinessDay cal cs d) = true :=
  nextBusinessAux_business cal cs _ d (exists_business_in_fuel cal cs d)

theorem nextBusinessDay_ge (cal : Cal) (cs : List String) (d : Int) :
    d ≤ nextBusinessDay cal cs d :=
  nextBusinessAux_ge cal cs _ d

theorem nextBusinessDay_not_business_below (cal : Cal) (cs : List String) (d e : Int)
    (hde : d ≤ e) (hlt : e < nextBusinessDay cal cs d) : isBusinessDay cal cs e = false :=
  nextBusinessAux_not_business_below cal cs _ d e hde hlt

theorem addWorkDays_ge (cal : Cal) (cs : List String) :
    ∀ (k : Nat) (d : Int), d ≤ addWorkDays cal cs k d := by
  intro k
  induction k with
  | zero => intro d; exact le_refl d
  | succ k ih =>
    intro d
    unfold addWorkDays
    have h1 : d + 1 ≤ nextBusinessDay cal cs (d + 1) := nextBusinessDay_ge cal cs (d + 1)
    have h2 := ih (nextBusinessDay cal cs (d + 1))
    omega

theorem addWorkDays_business (cal : Cal) (cs : List String) :
    ∀ (k : Nat) (d : Int), isBusinessDay cal cs d = true →
      isBusinessDay cal cs (addWorkDays cal cs k d) = true := by
  intro k
  induction k with
  | zero => intro d h; exact h
  | succ k ih =>
    intro d _
    unfold addWorkDays
    exact ih _ (nextBusinessDay_business cal cs (d + 1))

theorem bdAux_succ (cal : Cal) (cs : List String) (n : Nat) (d : Int) :
    bdAux cal cs (n + 1) d =
      (if isBusinessDay cal cs d then 1 else 0) + bdAux cal cs n (d + 1) := rfl

theorem bdAux_add (cal : Cal) (cs : List String) :
    ∀ (m n : Nat) (d : Int), bdAux cal cs (m + n) d = bdAux cal cs m d + bdAux cal cs n (d + m) := by
  intro m
  induction m with
  | zero =>
    intro n d
    simp [bdAux]
  | succ m ih =>
    intro n d
    have hmn : m + 1 + n = (m + n) + 1 := by omega
    rw [hmn, bdAux_succ, bdAux_succ, ih n (d + 1)]
    have hc : d + 1 + (m : Int) = d + ((m + 1 : Nat) : Int) := by push_cast; ring
    rw [hc]
    omega

theorem getBusinessDays_split (cal : Cal) (cs : List String) (a b c : Int)
    (hab : a ≤ b) (hbc : b ≤ c) :
    getBusinessDays cal cs a c = getBusinessDays cal cs a b + getBusinessDays cal cs b c := by
  unfold getBusinessDays
  have h1 : (c - a).toNat = (b - a).toNat + (c - b).toNat := by omega
  rw [h1, bdAux_add]
  have h2 : a + ((b - a).toNat : Int) = b := by omega
  rw [h2]

theorem bdAux_zero_of_none (cal : Cal) (cs : List String) :
    ∀ (n : Nat) (d : Int), (∀ i : Nat, i < n → isBusinessDay cal cs (d + i) = false) →
      bdAux cal cs n d = 0 := by
  intro n
  induction n with
  | zero => intro d _; rfl
  | succ n ih =>
    intro d h
    rw [bdAux_succ]
    have h0 : isBusinessDay cal cs d = false := by
      have := h 0 (by omega)
      simpa using this
    rw [h0]
    simp only [Bool.false_eq_true, if_false]
    have : bdAux cal cs n (d + 1) = 0 := by
      apply ih
      intro i hi
      have := h (i + 1) (by omega)
      have heq : d + ((i + 1 : Nat) : Int) = d + 1 + i := by push_cast; omega
      rw [heq] at this
      exact this
    omega

theorem getBusinessDays_zero_of_le (cal : Cal) (cs : List String) (a b : Int) (h : b ≤ a) :
    getBusinessDays cal cs a b = 0 := by
  unfold getBusinessDays
  have : (b - a).toNat = 0 := by omega
  rw [this]
  rfl

theorem getBusinessDays_zero_of_none (cal : Cal) (cs : List String) (a b : Int)
    (h : ∀ e : Int, a ≤ e → e < b → isBusinessDay cal cs e = false) :
    getBusinessDays cal cs a b = 0 := by
  unfold getBusinessDays
  apply bdAux_zero_of_none
  intro i hi
  apply h
  · omega
  · omega

theorem getBusinessDays_singleton (cal : Cal) (cs : List String) (d : Int)
    (h : isBusinessDay cal cs d = true) : getBusinessDays cal cs d (d + 1) = 1 := by
  unfold getBusinessDays
  have : (d + 1 - d).toNat = 1 := by omega
  rw [this]
  unfold bdAux
  rw [h]
  rfl

theorem count_addWorkDays (cal : Cal) (cs : List String) :
    ∀ (k : Nat) (d : Int), isBusinessDay cal cs d = true →
      getBusinessDays cal cs (d + 1) (addWorkDays cal cs k d + 1) = k := by
  intro k
  induction k with
  | zero =>
    intro d _
    unfold addWorkDays
    exact getBusinessDays_zero_of_le cal cs _ _ (le_refl _)
  | succ k ih =>
    intro d _
    unfold addWorkDays
    set d' := nextBusinessDay cal cs (d + 1) with hd'
    have h1 : d + 1 ≤ d' := nextBusinessDay_ge cal cs (d + 1)
    have hb' : isBusinessDay cal cs d' = true := nextBusinessDay_business cal cs (d + 1)
    have h2 : d' ≤ addWorkDays cal cs k d' := addWorkDays_ge cal cs k d'
    rw [getBusinessDays_split cal cs (d + 1) d' (addWorkDays cal cs k d' + 1) h1 (by omega)]
    rw [getBusinessDays_split cal cs d' (d' + 1) (addWorkDays cal cs k d' + 1) (by omega) (by omega)]
    rw [getBusinessDays_zero_of_none cal cs (d + 1) d'
      (fun e he1 he2 => nextBusinessDay_not_business_below cal cs (d + 1) e he1 he2)]
    rw [getBusinessDays_singleton cal cs d' hb']
    rw [ih d' hb']
    omega

theorem passAux_nil (cal : Cal) (cs : List String) (start : Int)
    (pre : List Task) (pr : List String) (prog : Bool) :
    passAux cal cs start pre [] pr prog = (pre, pr, prog) := rfl

theorem passAux_cons_skip (cal : Cal) (cs : List String) (start : Int)
    (t : Task) (rest pre : List Task) (pr : List String) (prog : Bool)
    (hc : pr.contains t.id = true) :
    passAux cal cs start pre (t :: rest) pr prog =
      passAux cal cs start (pre ++ [t]) rest pr prog := by
  conv_lhs => unfold passAux
  rw [if_pos hc]

theorem passAux_cons_notready (cal : Cal) (cs : List String) (start : Int)
    (t : Task) (rest pre : List Task) (pr : List String) (prog : Bool)
    (hc : pr.contains t.id = false)
    (hcp : checkPreds (pre ++ t :: rest) pr t.predecessors start = none) :
    passAux cal cs start pre (t :: rest) pr prog =
      passAux cal cs start (pre ++ [t]) rest pr prog := by
  conv_lhs => unfold passAux
  rw [if_neg (by rw [hc]; exact Bool.false_ne_true), hcp]

theorem passAux_cons_sched (cal : Cal) (cs : List String) (start : Int)
    (t : Task) (rest pre : List Task) (pr : List String) (prog : Bool) (m : Int)
    (hc : pr.contains t.id = false)
    (hcp : checkPreds (pre ++ t :: rest) pr t.predecessors start = some m) :
    passAux cal cs start pre (t :: rest) pr prog =
      passAux cal cs start (pre ++ [scheduleTask cal cs t m]) rest (t.id :: pr) true := by
  conv_lhs => unfold passAux
  rw [if_neg (by rw [hc]; exact Bool.false_ne_true), hcp]

theorem schedLoop_zero (cal : Cal) (cs : List String) (start : Int)
    (ts : List Task) (pr : List String) : schedLoop cal cs start 0 ts pr = ts := by
  unfold schedLoop
  split <;> rfl

theorem schedLoop_succ (cal : Cal) (cs : List String) (start : Int)
    (f : Nat) (ts : List Task) (pr : List String) :
    schedLoop cal cs start (f + 1) ts pr =
      if pr.length < ts.length then
        (if (passAux cal cs start [] ts pr false).2.2 then
          schedLoop cal cs start f (passAux cal cs start [] ts pr false).1
            (passAux cal cs start [] ts pr false).2.1
        else (passAux cal cs start [] ts pr false).1)
      else ts := rfl

theorem core_scheduleTask (cal : Cal) (cs : List String) (t : Task) (m : Int) :
    (scheduleTask cal cs t m).core = t.core := rfl

theorem core_resetTask (t : Task) (i : Nat) :
    (Task.core { t with serialNumber := some (i + 1),
                        computedStart := none, computedEnd := none }) = t.core := rfl

theorem passAux_map_core (cal : Cal) (cs : List String) (start : Int) :
    ∀ (suf pre : List Task) (pr : List String) (prog : Bool),
      ((passAux cal cs start pre suf pr prog).1).map Task.core = (pre ++ suf).map Task.core := by
  intro suf
  induction suf with
  | nil =>
    intro pre pr prog
    simp [passAux]
  | cons t rest ih =>
    intro pre pr prog
    unfold passAux
    by_cases hc : pr.contains t.id
    · rw [if_pos hc, ih]
      simp
    · rw [if_neg hc]
      cases hcp : checkPreds (pre ++ t :: rest) pr t.predecessors start with
      | none =>
        rw [ih]
        simp
      | some m =>
        rw [ih]
        simp [core_scheduleTask]

theorem passAux_length (cal : Cal) (cs : List String) (start : Int)
    (suf pre : List Task) (pr : List String) (prog : Bool) :
    ((passAux cal cs start pre suf pr prog).1).length = (pre ++ suf).length := by
  have h := passAux_map_core cal cs start suf pre pr prog
  have := congrArg List.length h
  simpa using this

theorem schedLoop_map_core (cal : Cal) (cs : List String) (start : Int) :
    ∀ (f : Nat) (ts : List Task) (pr : List String),
      (schedLoop cal cs start f ts pr).map Task.core = ts.map Task.core := by
  intro f
  induction f with
  | zero =>
    intro ts pr
    rw [schedLoop_zero]
  | succ f ih =>
    intro ts pr
    rw [schedLoop_succ]
    by_cases hg : pr.length < ts.length
    · rw [if_pos hg]
      by_cases hp : (passAux cal cs start [] ts pr false).2.2
      · rw [if_pos hp, ih]
        have := passAux_map_core cal cs start ts [] pr false
        simpa using this
      · rw [if_neg hp]
        have := passAux_map_core cal cs start ts [] pr false
        simpa using this
    · rw [if_neg hg]

theorem resetTasksFrom_map_core :
    ∀ (i : Nat) (ts : List Task), (resetTasksFrom i ts).map Task.core = ts.map Task.core := by
  intro i ts
  induction ts generalizing i with
  | nil => rfl
  | cons t rest ih =>
    unfold resetTasksFrom
    simp only [List.map_cons]
    rw [core_resetTask, ih]

theorem calculateScheduleFuel_map_core (cal : Cal) (f : Nat) (p : Project) :
    ((calculateScheduleFuel cal f p).tasks).map Task.core = p.tasks.map Task.core := by
  unfold calculateScheduleFuel
  simp only
  rw [schedLoop_map_core, resetTasks, resetTasksFrom_map_core]

theorem calculateSchedule_map_core (cal : Cal) (p : Project) :
    ((calculateSchedule cal p).tasks).map Task.core = p.tasks.map Task.core :=
  calculateScheduleFuel_map_core cal _ p

theorem calculateSchedule_name (cal : Cal) (p : Project) :
    (calculateSchedule cal p).name = p.name := rfl

theorem calculateSchedule_startDate (cal : Cal) (p : Project) :
    (calculateSchedule cal p).startDate = p.startDate := rfl

theorem calculateSchedule_country (cal : Cal) (p : Project) :
    (calculateSchedule cal p).country = p.country := rfl

theorem calculateSchedule_vddEnabled (cal : Cal) (p : Project) :
    (calculateSchedule cal p).vddEnabled = p.vddEnabled := rfl

theorem schedOk_scheduleTask (cal : Cal) (cs : List String) (t : Task) (m : Int) :
    schedOk cal cs (scheduleTask cal cs t m) := by
  unfold scheduleTask schedOk
  exact ⟨nextBusinessDay_business cal cs _, rfl⟩

theorem passAux_schedOk (cal : Cal) (cs : List String) (start : Int) :
    ∀ (suf pre : List Task) (pr : List String) (prog : Bool),
      (∀ t ∈ pre ++ suf, schedOk cal cs t) →
      ∀ t ∈ (passAux cal cs start pre suf pr prog).1, schedOk cal cs t := by
  intro suf
  induction suf with
  | nil =>
    intro pre pr prog h
    simpa [passAux] using h
  | cons t rest ih =>
    intro pre pr prog h
    unfold passAux
    by_cases hc : pr.contains t.id
    · rw [if_pos hc]
      apply ih
      simpa using h
    · rw [if_neg hc]
      cases hcp : checkPreds (pre ++ t :: rest) pr t.predecessors start with
      | none =>
        apply ih
        simpa using h
      | some m =>
        apply ih
        intro u hu
        rcases List.mem_append.mp hu with hu | hu
        · rcases List.mem_append.mp hu with hu | hu
          · exact h u (List.mem_append.mpr (Or.inl hu))
          · rcases List.mem_singleton.mp hu with rfl
            exact schedOk_scheduleTask cal cs t m
        · exact h u (List.mem_append.mpr (Or.inr (List.mem_cons_of_mem t hu)))

theorem schedLoop_schedOk (cal : Cal) (cs : List String) (start : Int) :
    ∀ (f : Nat) (ts : List Task) (pr : List String),
      (∀ t ∈ ts, schedOk cal cs t) →
      ∀ t ∈ schedLoop cal cs start f ts pr, schedOk cal cs t := by
  intro f
  induction f with
  | zero =>
    intro ts pr h
    rw [schedLoop_zero]
    exact h
  | succ f ih =>
    intro ts pr h
    rw [schedLoop_succ]
    by_cases hg : pr.length < ts.length
    · rw [if_pos hg]
      have hpass : ∀ t ∈ (passAux cal cs start [] ts pr false).1, schedOk cal cs t := by
        apply passAux_schedOk
        simpa using h
      by_cases hp : (passAux cal cs start [] ts pr false).2.2
      · rw [if_pos hp]
        exact ih _ _ hpass
      · rw [if_neg hp]
        exact hpass
    · rw [if_neg hg]
      exact h

theorem resetTasksFrom_computed_none :
    ∀ (i : Nat) (ts : List Task) (t : Task), t ∈ resetTasksFrom i ts →
      t.computedStart = none ∧ t.computedEnd = none := by
  intro i ts
  induction ts generalizing i with
  | nil => intro t ht; cases ht
  | cons u rest ih =>
    intro t ht
    unfold resetTasksFrom at ht
    rcases List.mem_cons.mp ht with rfl | hmem
    · exact ⟨rfl, rfl⟩
    · exact ih (i + 1) t hmem

theorem calculateScheduleFuel_schedOk (cal : Cal) (f : Nat) (p : Project) :
    ∀ t ∈ (calculateScheduleFuel cal f p).tasks, schedOk cal p.country t := by
  intro t ht
  apply schedLoop_schedOk cal p.country p.startDate f (resetTasks p.tasks) [] _ t ht
  intro u hu
  have := resetTasksFrom_computed_none 0 p.tasks u hu
  unfold schedOk
  rw [this.1, this.2]
  exact trivial

theorem calculateSchedule_schedOk (cal : Cal) (p : Project) :
    ∀ t ∈ (calculateSchedule cal p).tasks, schedOk cal p.country t :=
  calculateScheduleFuel_schedOk cal _ p

theorem schedOk_start_business (cal : Cal) (cs : List String) (t : Task) (s : Int)
    (h : schedOk cal cs t) (hs : t.computedStart = some s) :
    isBusinessDay cal cs s = true := by
  unfold schedOk at h
  rw [hs] at h
  cases he : t.computedEnd with
  | none => rw [he] at h; exact absurd h not_false
  | some e =>
    rw [he] at h
    exact h.1

theorem schedOk_end_business (cal : Cal) (cs : List String) (t : Task) (e : Int)
    (h : schedOk cal cs t) (he : t.computedEnd = some e) :
    isBusinessDay cal cs e = true := by
  unfold schedOk at h
  rw [he] at h
  cases hs : t.computedStart with
  | none => rw [hs] at h; exact absurd h not_false
  | some s =>
    rw [hs] at h
    obtain ⟨hb, hf⟩ := h
    by_cases hd : t.durationWeeks = 0
    · rw [if_pos hd] at hf
      rw [hf]
      exact hb
    · rw [if_neg hd] at hf
      rw [hf]
      exact addWorkDays_business cal cs _ s hb

theorem schedOk_count (cal : Cal) (cs : List String) (t : Task) (s e : Int)
    (h : schedOk cal cs t) (hs : t.computedStart = some s) (he : t.computedEnd = some e)
    (hd : 0 < t.durationWeeks) :
    getBusinessDays cal cs (s + 1) (e + 1) = (⌊t.durationWeeks * 5⌋).toNat := by
  unfold schedOk at h
  rw [hs, he] at h
  obtain ⟨hb, hf⟩ := h
  rw [if_neg (by exact ne_of_gt hd)] at hf
  rw [hf]
  exact count_addWorkDays cal cs _ s hb

theorem schedOk_none_of_start_none (cal : Cal) (cs : List String) (t : Task)
    (h : schedOk cal cs t) (hs : t.computedStart = none) : t.computedEnd = none := by
  unfold schedOk at h
  rw [hs] at h
  cases he : t.computedEnd with
  | none => rfl
  | some e => rw [he] at h; exact absurd h not_false

theorem passAux_processed_le (cal : Cal) (cs : List String) (start : Int) :
    ∀ (suf pre : List Task) (pr : List String) (prog : Bool),
      pr.length ≤ ((passAux cal cs start pre suf pr prog).2.1).length := by
  intro suf
  induction suf with
  | nil => intro pre pr prog; exact le_refl _
  | cons t rest ih =>
    intro pre pr prog
    cases hc : pr.contains t.id with
    | true =>
      rw [passAux_cons_skip cal cs start t rest pre pr prog hc]
      exact ih _ _ _
    | false =>
      cases hcp : checkPreds (pre ++ t :: rest) pr t.predecessors start with
      | none =>
        rw [passAux_cons_notready cal cs start t rest pre pr prog hc hcp]
        exact ih _ _ _
      | some m =>
        rw [passAux_cons_sched cal cs start t rest pre pr prog m hc hcp]
        have := ih (pre ++ [scheduleTask cal cs t m]) (t.id :: pr) true
        simp only [List.length_cons] at this
        omega

theorem passAux_progress_grows (cal : Cal) (cs : List String) (start : Int) :
    ∀ (suf pre : List Task) (pr : List String) (prog : Bool),
      (passAux cal cs start pre suf pr prog).2.2 = true →
      prog = true ∨ pr.length + 1 ≤ ((passAux cal cs start pre suf pr prog).2.1).length := by
  intro suf
  induction suf with
  | nil =>
    intro pre pr prog h
    exact Or.inl h
  | cons t rest ih =>
    intro pre pr prog h
    cases hc : pr.contains t.id with
    | true =>
      rw [passAux_cons_skip cal cs start t rest pre pr prog hc] at h ⊢
      exact ih _ _ _ h
    | false =>
      cases hcp : checkPreds (pre ++ t :: rest) pr t.predecessors start with
      | none =>
        rw [passAux_cons_notready cal cs start t rest pre pr prog hc hcp] at h ⊢
        exact ih _ _ _ h
      | some m =>
        rw [passAux_cons_sched cal cs start t rest pre pr prog m hc hcp]
        right
        have := passAux_processed_le cal cs start rest (pre ++ [scheduleTask cal cs t m])
          (t.id :: pr) true
        simp only [List.length_cons] at this
        omega

theorem schedLoop_add_one (cal : Cal) (cs : List String) (start : Int) :
    ∀ (f : Nat) (ts : List Task) (pr : List String), ts.length - pr.length ≤ f →
      schedLoop cal cs start (f + 1) ts pr = schedLoop cal cs start f ts pr := by
  intro f
  induction f with
  | zero =>
    intro ts pr h
    have hng : ¬ pr.length < ts.length := by omega
    rw [schedLoop_succ, if_neg hng, schedLoop_zero]
  | succ f ih =>
    intro ts pr h
    conv_lhs => rw [schedLoop_succ]
    conv_rhs => rw [schedLoop_succ]
    by_cases hg : pr.length < ts.length
    · rw [if_pos hg, if_pos hg]
      by_cases hp : (passAux cal cs start [] ts pr false).2.2
      · rw [if_pos hp, if_pos hp]
        apply ih
        have hlen : ((passAux cal cs start [] ts pr false).1).length = ts.length := by
          have := passAux_length cal cs start ts [] pr false
          simpa using this
        have hgrow := passAux_progress_grows cal cs start ts [] pr false hp
        simp only [Bool.false_eq_true, false_or] at hgrow
        omega
      · rw [if_neg hp, if_neg hp]
    · rw [if_neg hg, if_neg hg]

theorem schedLoop_stable (cal : Cal) (cs : List String) (start : Int)
    (f k : Nat) (ts : List Task) (pr : List String) (h : ts.length - pr.length ≤ f) :
    schedLoop cal cs start (f + k) ts pr = schedLoop cal cs start f ts pr := by
  induction k with
  | zero => rfl
  | succ k ih =>
    have : f + (k + 1) = (f + k) + 1 := by omega
    rw [this, schedLoop_add_one cal cs start (f + k) ts pr (by omega), ih]

theorem resetTasks_length (ts : List Task) : (resetTasks ts).length = ts.length := by
  have := congrArg List.length (resetTasksFrom_map_core 0 ts)
  simpa [resetTasks] using this

theorem calculateScheduleFuel_stable (cal : Cal) (p : Project) (f : Nat)
    (h : p.tasks.length * 3 ≤ f) :
    calculateScheduleFuel cal f p = calculateSchedule cal p := by
  unfold calculateSchedule calculateScheduleFuel
  have hlen : (resetTasks p.tasks).length = p.tasks.length := resetTasks_length p.tasks
  have hk : f = p.tasks.length * 3 + (f - p.tasks.length * 3) := by omega
  rw [hk, schedLoop_stable cal p.country p.startDate (p.tasks.length * 3)
    (f - p.tasks.length * 3) (resetTasks p.tasks) [] (by simp [hlen]; omega)]

theorem lookupLast_none_not_mem :
    ∀ (ts : List Task) (pid : String), lookupLast ts pid = none →
      ∀ q ∈ ts, q.id ≠ pid := by
  intro ts pid
  induction ts with
  | nil => intro _ q hq; cases hq
  | cons t rest ih =>
    intro h q hq
    unfold lookupLast at h
    cases hrl : lookupLast rest pid with
    | some r => rw [hrl] at h; cases h
    | none =>
      rw [hrl] at h
      rcases List.mem_cons.mp hq with rfl | hmem
      · intro hid
        rw [if_pos (beq_iff_eq.mpr hid)] at h
        cases h
      · exact ih hrl q hmem

theorem lookupLast_isSome_of_mem :
    ∀ (ts : List Task) (pid : String) (q : Task), q ∈ ts → q.id = pid →
      ∃ r, lookupLast ts pid = some r := by
  intro ts pid q hq hid
  cases hll : lookupLast ts pid with
  | some r => exact ⟨r, rfl⟩
  | none => exact absurd hid (lookupLast_none_not_mem ts pid hll q hq)

theorem lookupLast_mem :
    ∀ (ts : List Task) (pid : String) (q : Task), lookupLast ts pid = some q →
      q ∈ ts ∧ q.id = pid := by
  intro ts pid
  induction ts with
  | nil => intro q h; cases h
  | cons t rest ih =>
    intro q h
    unfold lookupLast at h
    cases hrl : lookupLast rest pid with
    | some r =>
      rw [hrl] at h
      cases h
      obtain ⟨hmem, hid⟩ := ih q hrl
      exact ⟨List.mem_cons_of_mem t hmem, hid⟩
    | none =>
      rw [hrl] at h
      by_cases hid : t.id == pid
      · rw [if_pos hid] at h
        cases h
        exact ⟨List.mem_cons_self _ _, beq_iff_eq.mp hid⟩
      · rw [if_neg hid] at h
        cases h

theorem checkPreds_empty_processed (ts : List Task) (pid : String) (q : Task)
    (rest : List String) (acc : Int) (h : lookupLast ts pid = some q) :
    checkPreds ts [] (pid :: rest) acc = none := by
  unfold checkPreds
  rw [h]
  have hng : ¬ (([] : List String).contains q.id = true ∧ q.computedEnd.isSome = true) := by
    rintro ⟨hcon, -⟩
    simp [List.contains] at hcon
  exact if_neg hng

theorem schedule_two_cycle (cal : Cal) (p : Project) (tA tB : Task)
    (hp : p.tasks = [tA, tB]) (hA : tA.predecessors = [tB.id])
    (hB : tB.predecessors = [tA.id]) :
    ∀ t ∈ (calculateSchedule cal p).tasks,
      t.computedStart = none ∧ t.computedEnd = none := by
  have hreset : resetTasks p.tasks =
      [{ tA with serialNumber := some 1, computedStart := none, computedEnd := none },
       { tB with serialNumber := some 2, computedStart := none, computedEnd := none }] := by
    rw [hp]
    rfl
  have hlen : p.tasks.length * 3 = 6 := by rw [hp]; rfl
  have htasks : (calculateSchedule cal p).tasks =
      schedLoop cal p.country p.startDate (p.tasks.length * 3) (resetTasks p.tasks) [] := rfl
  rw [hreset, hlen] at htasks
  set A' : Task :=
    { tA with serialNumber := some 1, computedStart := none, computedEnd := none } with hA'
  set B' : Task :=
    { tB with serialNumber := some 2, computedStart := none, computedEnd := none } with hB'
  obtain ⟨rB, hrB⟩ : ∃ r, lookupLast [A', B'] tB.id = some r :=
    lookupLast_isSome_of_mem [A', B'] tB.id B'
      (List.mem_cons_of_mem _ (List.mem_singleton_self _)) rfl
  obtain ⟨rA, hrA⟩ : ∃ r, lookupLast [A', B'] tA.id = some r :=
    lookupLast_isSome_of_mem [A', B'] tA.id A' (List.mem_cons_self _ _) rfl
  have hcpA : checkPreds [A', B'] [] A'.predecessors p.startDate = none := by
    have hpr : A'.predecessors = [tB.id] := hA
    rw [hpr]
    exact checkPreds_empty_processed [A', B'] tB.id rB [] p.startDate hrB
  have hcpB : checkPreds [A', B'] [] B'.predecessors p.startDate = none := by
    have hpr : B'.predecessors = [tA.id] := hB
    rw [hpr]
    exact checkPreds_empty_processed [A', B'] tA.id rA [] p.startDate hrA
  have hpass : passAux cal p.country p.startDate [] [A', B'] [] false = ([A', B'], [], false) := by
    rw [passAux_cons_notready cal p.country p.startDate A' [B'] [] [] false rfl hcpA]
    rw [passAux_cons_notready cal p.country p.startDate B' [] ([] ++ [A']) [] false rfl hcpB]
    rw [passAux_nil]
    rfl
  have hloop : schedLoop cal p.country p.startDate 6 [A', B'] [] = [A', B'] := by
    have h6 : (6 : Nat) = 5 + 1 := rfl
    rw [h6, schedLoop_succ]
    rw [if_pos (by simp : ([] : List String).length < [A', B'].length)]
    rw [hpass]
    rfl
  rw [hloop] at htasks
  intro t ht
  rw [htasks] at ht
  rcases List.mem_cons.mp ht with rfl | ht
  · exact ⟨rfl, rfl⟩
  · rcases List.mem_singleton.mp ht with rfl
    exact ⟨rfl, rfl⟩

theorem contains_iff_mem_str (l : List String) (a : String) : l.contains a = true ↔ a ∈ l := by
  induction l with
  | nil => simp [List.contains]
  | cons h t ih =>
    simp only [List.contains, List.elem_cons]
    constructor
    · intro hx
      by_cases hah : a = h
      · exact hah ▸ List.mem_cons_self a t
      · have hf : (a == h) = false := beq_false_of_ne hah
        rw [hf] at hx
        exact List.mem_cons_of_mem h (ih.mp hx)
    · intro hx
      rcases List.mem_cons.mp hx with rfl | hmem
      · simp
      · by_cases hah : a = h
        · simp [hah]
        · have hf : (a == h) = false := beq_false_of_ne hah
          rw [hf]
          exact ih.mpr hmem

theorem scheduleTask_start_eq (cal : Cal) (cs : List String) (t : Task) (m : Int) :
    (scheduleTask cal cs t m).computedStart = some (nextBusinessDay cal cs
      (match t.manualStartOffset with
       | some k => if k ≠ 0 then m + k else m
       | none => m)) := rfl

theorem scheduleTask_start_ne (cal : Cal) (cs : List String) (t : Task) (m : Int) :
    (scheduleTask cal cs t m).computedStart ≠ none := by
  rw [scheduleTask_start_eq]
  simp

theorem scheduleTask_end_ne (cal : Cal) (cs : List String) (t : Task) (m : Int) :
    (scheduleTask cal cs t m).computedEnd ≠ none := by
  unfold scheduleTask
  simp

theorem scheduleTask_start_ge (cal : Cal) (cs : List String) (t : Task) (m : Int)
    (hof : offsetOk t) :
    ∀ s : Int, (scheduleTask cal cs t m).computedStart = some s → m ≤ s := by
  intro s hs
  rw [scheduleTask_start_eq] at hs
  have hse := (Option.some.inj hs).symm
  subst hse
  cases ho : t.manualStartOffset with
  | none =>
    exact nextBusinessDay_ge cal cs m
  | some k =>
    show m ≤ nextBusinessDay cal cs (if k ≠ 0 then m + k else m)
    by_cases hk : k = 0
    · rw [if_neg (by simp [hk])]
      exact nextBusinessDay_ge cal cs m
    · rw [if_pos hk]
      have h1 : 0 ≤ k := hof k ho
      have h2 := nextBusinessDay_ge cal cs (m + k)
      omega

theorem offsetOk_scheduleTask (cal : Cal) (cs : List String) (t : Task) (m : Int)
    (hof : offsetOk t) : offsetOk (scheduleTask cal cs t m) := by
  intro k hk
  exact hof k hk

theorem checkPreds_cons_found (ts : List Task) (pr : List String) (pid : String)
    (rest : List String) (acc : Int) (pred : Task)
    (hll : lookupLast ts pid = some pred) :
    checkPreds ts pr (pid :: rest) acc =
      if pr.contains pred.id = true ∧ pred.computedEnd.isSome = true then
        match pred.computedEnd with
        | some e => checkPreds ts pr rest (if acc < e then e else acc)
        | none => checkPreds ts pr rest acc
      else none := by
  conv_lhs => unfold checkPreds; rw [hll]

theorem checkPreds_cons_dangling (ts : List Task) (pr : List String) (pid : String)
    (rest : List String) (acc : Int) (hll : lookupLast ts pid = none) :
    checkPreds ts pr (pid :: rest) acc = checkPreds ts pr rest acc := by
  conv_lhs => unfold checkPreds; rw [hll]

theorem checkPreds_sound :
    ∀ (preds : List String) (ts : List Task) (pr : List String) (acc m : Int),
      checkPreds ts pr preds acc = some m →
      acc ≤ m ∧ ∀ pid ∈ preds, ∀ q : Task, lookupLast ts pid = some q →
        q.id ∈ pr ∧ ∃ e : Int, q.computedEnd = some e ∧ e ≤ m := by
  intro preds
  induction preds with
  | nil =>
    intro ts pr acc m h
    have ham := Option.some.inj h
    subst ham
    exact ⟨le_refl _, by intro pid hpid; cases hpid⟩
  | cons pid rest ih =>
    intro ts pr acc m h
    cases hll : lookupLast ts pid with
    | none =>
      rw [checkPreds_cons_dangling ts pr pid rest acc hll] at h
      obtain ⟨hle, hrest⟩ := ih ts pr acc m h
      refine ⟨hle, ?_⟩
      intro pid' hpid' q hq
      rcases List.mem_cons.mp hpid' with rfl | hmem
      · rw [hll] at hq; cases hq
      · exact hrest pid' hmem q hq
    | some pred =>
      rw [checkPreds_cons_found ts pr pid rest acc pred hll] at h
      by_cases hg : pr.contains pred.id = true ∧ pred.computedEnd.isSome = true
      · rw [if_pos hg] at h
        obtain ⟨hcon, hsome⟩ := hg
        cases hce : pred.computedEnd with
        | none => rw [hce] at hsome; cases hsome
        | some e =>
          rw [hce] at h
          obtain ⟨hle, hrest⟩ := ih ts pr _ m h
          have haccif : acc ≤ if acc < e then e else acc := by split <;> omega
          have heif : e ≤ if acc < e then e else acc := by split <;> omega
          refine ⟨le_trans haccif hle, ?_⟩
          intro pid' hpid' q hq
          rcases List.mem_cons.mp hpid' with rfl | hmem
          · rw [hll] at hq
            have hqe := Option.some.inj hq
            subst hqe
            exact ⟨(contains_iff_mem_str pr _).mp hcon, e, hce, le_trans heif hle⟩
          · exact hrest pid' hmem q hq
      · rw [if_neg hg] at h
        cases h

theorem invC1_step (cal : Cal) (cs : List String) (start : Int)
    (L1 L2 : List Task) (t : Task) (pr : List String) (m : Int)
    (hInv : InvC1 (L1 ++ t :: L2) pr)
    (hOffT : offsetOk t)
    (hnp : pr.contains t.id = false)
    (hcp : checkPreds (L1 ++ t :: L2) pr t.predecessors start = some m) :
    InvC1 (L1 ++ scheduleTask cal cs t m :: L2) (t.id :: pr) := by
  obtain ⟨IA, IB, ID, IE⟩ := hInv
  have hsound := (checkPreds_sound t.predecessors (L1 ++ t :: L2) pr start m hcp).2
  generalize hT : scheduleTask cal cs t m = t'
  have htmem : t ∈ L1 ++ t :: L2 := List.mem_append.mpr (Or.inr (List.mem_cons_self _ _))
  have htid_notin : t.id ∉ pr := by
    intro hmem
    rw [(contains_iff_mem_str pr t.id).mpr hmem] at hnp
    cases hnp
  have htend : t.computedEnd = none := by
    by_contra hne
    exact htid_notin (IB t htmem hne)
  have htstart : t.computedStart = none := (IA t htmem).mpr htend
  have ht'id : t'.id = t.id := by rw [← hT]; rfl
  have ht'preds : t'.predecessors = t.predecessors := by rw [← hT]; rfl
  have ht'end_ne : t'.computedEnd ≠ none := by rw [← hT]; exact scheduleTask_end_ne cal cs t m
  have ht'start_ne : t'.computedStart ≠ none := by rw [← hT]; exact scheduleTask_start_ne cal cs t m
  have ht'start_ge : ∀ s : Int, t'.computedStart = some s → m ≤ s := by
    rw [← hT]; exact scheduleTask_start_ge cal cs t m hOffT
  have ht'mem : t' ∈ L1 ++ t' :: L2 := List.mem_append.mpr (Or.inr (List.mem_cons_self _ _))
  have hmem_new_old : ∀ u : Task, u ∈ L1 ++ t' :: L2 → u = t' ∨ u ∈ L1 ++ t :: L2 := by
    intro u hu
    rcases List.mem_append.mp hu with h1 | h2
    · exact Or.inr (List.mem_append.mpr (Or.inl h1))
    · rcases List.mem_cons.mp h2 with rfl | h3
      · exact Or.inl rfl
      · exact Or.inr (List.mem_append.mpr (Or.inr (List.mem_cons_of_mem _ h3)))
  have hmem_old_new : ∀ u : Task, u ∈ L1 ++ t :: L2 → u = t ∨ u ∈ L1 ++ t' :: L2 := by
    intro u hu
    rcases List.mem_append.mp hu with h1 | h2
    · exact Or.inr (List.mem_append.mpr (Or.inl h1))
    · rcases List.mem_cons.mp h2 with rfl | h3
      · exact Or.inl rfl
      · exact Or.inr (List.mem_append.mpr (Or.inr (List.mem_cons_of_mem _ h3)))
  refine ⟨?_, ?_, ?_, ?_⟩
  · -- computed fields in pairs
    intro u hu
    rcases hmem_new_old u hu with rfl | hold
    · constructor
      · intro hs; exact absurd hs ht'start_ne
      · intro he; exact absurd he ht'end_ne
    · exact IA u hold
  · -- scheduled implies processed
    intro u hu hune
    rcases hmem_new_old u hu with rfl | hold
    · rw [ht'id]; exact List.mem_cons_self _ _
    · exact List.mem_cons_of_mem _ (IB u hold hune)
  · -- one end date per id
    intro x y hx hy hxy hxe hye
    rcases hmem_new_old x hx with rfl | hxold
    · rcases hmem_new_old y hy with rfl | hyold
      · rfl
      · exfalso
        apply htid_notin
        have hyid : y.id = t.id := by rw [← hxy, ht'id]
        rw [← hyid]
        exact IB y hyold hye
    · rcases hmem_new_old y hy with rfl | hyold
      · exfalso
        apply htid_notin
        have hxid : x.id = t.id := by rw [hxy, ht'id]
        rw [← hxid]
        exact IB x hxold hxe
      · exact ID x y hxold hyold hxy hxe hye
  · -- predecessor ordering and resolvedness
    intro u hu s hus pid hpid
    rcases hmem_new_old u hu with rfl | huold
    · -- the newly scheduled task
      have hm_le_s : m ≤ s := ht'start_ge s hus
      have hpidt : pid ∈ t.predecessors := ht'preds ▸ hpid
      constructor
      · intro q hq hqid e hqe
        rcases hmem_new_old q hq with rfl | hqold
        · exfalso
          have hpid_tid : pid = t.id := by rw [← hqid, ht'id]
          obtain ⟨q0, hq0⟩ :=
            lookupLast_isSome_of_mem (L1 ++ t :: L2) pid t htmem hpid_tid.symm
          obtain ⟨hq0pr, _⟩ := hsound pid hpidt q0 hq0
          have hq0id : q0.id = pid := (lookupLast_mem _ _ _ hq0).2
          apply htid_notin
          rw [← hpid_tid, ← hq0id]
          exact hq0pr
        · obtain ⟨q0, hq0⟩ :=
            lookupLast_isSome_of_mem (L1 ++ t :: L2) pid q hqold hqid
          obtain ⟨hq0pr, e0, hq0e, he0m⟩ := hsound pid hpidt q0 hq0
          have hq0mem : q0 ∈ L1 ++ t :: L2 := (lookupLast_mem _ _ _ hq0).1
          have hq0id : q0.id = pid := (lookupLast_mem _ _ _ hq0).2
          have heqe : q.computedEnd = q0.computedEnd :=
            ID q q0 hqold hq0mem (by rw [hqid, hq0id])
              (by rw [hqe]; simp) (by rw [hq0e]; simp)
          rw [hqe, hq0e] at heqe
          have := Option.some.inj heqe
          omega
      · intro q hq hqid
        rcases hmem_new_old q hq with rfl | hqold
        · exact ⟨_, ht'mem, hqid, ht'end_ne⟩
        · obtain ⟨q0, hq0⟩ :=
            lookupLast_isSome_of_mem (L1 ++ t :: L2) pid q hqold hqid
          obtain ⟨hq0pr, e0, hq0e, he0m⟩ := hsound pid hpidt q0 hq0
          have hq0mem : q0 ∈ L1 ++ t :: L2 := (lookupLast_mem _ _ _ hq0).1
          have hq0id : q0.id = pid := (lookupLast_mem _ _ _ hq0).2
          have hq0t : q0 ≠ t := by
            intro heq
            rw [heq, htend] at hq0e
            cases hq0e
          rcases hmem_old_new q0 hq0mem with rfl | hq0new
          · exact absurd rfl hq0t
          · exact ⟨q0, hq0new, hq0id, by rw [hq0e]; simp⟩
    · -- a previously scheduled task
      obtain ⟨Eu, Fu⟩ := IE u huold s hus pid hpid
      constructor
      · intro q hq hqid e hqe
        rcases hmem_new_old q hq with rfl | hqold
        · exfalso
          have hpid_tid : pid = t.id := by rw [← hqid, ht'id]
          obtain ⟨q2, hq2mem, hq2id, hq2ne⟩ := Fu t htmem hpid_tid.symm
          apply htid_notin
          rw [← hpid_tid, ← hq2id]
          exact IB q2 hq2mem hq2ne
        · exact Eu q hqold hqid e hqe
      · intro q hq hqid
        rcases hmem_new_old q hq with rfl | hqold
        · exact ⟨q, hq, hqid, ht'end_ne⟩
        · obtain ⟨q2, hq2mem, hq2id, hq2ne⟩ := Fu q hqold hqid
          have hq2t : q2 ≠ t := by
            intro heq
            rw [heq] at hq2ne
            exact hq2ne htend
          rcases hmem_old_new q2 hq2mem with rfl | hq2new
          · exact absurd rfl hq2t
          · exact ⟨q2, hq2new, hq2id, hq2ne⟩

theorem passAux_invC1 (cal : Cal) (cs : List String) (start : Int) :
    ∀ (suf pre : List Task) (pr : List String) (prog : Bool),
      (∀ u ∈ pre ++ suf, offsetOk u) → InvC1 (pre ++ suf) pr →
      (∀ u ∈ (passAux cal cs start pre suf pr prog).1, offsetOk u) ∧
        InvC1 (passAux cal cs start pre suf pr prog).1
          (passAux cal cs start pre suf pr prog).2.1 := by
  intro suf
  induction suf with
  | nil =>
    intro pre pr prog hOff hInv
    rw [passAux_nil]
    simp only [List.append_nil] at hOff hInv
    exact ⟨hOff, hInv⟩
  | cons t rest ih =>
    intro pre pr prog hOff hInv
    have hMM : (pre ++ [t]) ++ rest = pre ++ t :: rest := by simp
    cases hc : pr.contains t.id with
    | true =>
      rw [passAux_cons_skip cal cs start t rest pre pr prog hc]
      apply ih
      · rw [hMM]; exact hOff
      · rw [hMM]; exact hInv
    | false =>
      cases hcp : checkPreds (pre ++ t :: rest) pr t.predecessors start with
      | none =>
        rw [passAux_cons_notready cal cs start t rest pre pr prog hc hcp]
        apply ih
        · rw [hMM]; exact hOff
        · rw [hMM]; exact hInv
      | some m =>
        rw [passAux_cons_sched cal cs start t rest pre pr prog m hc hcp]
        have htmem : t ∈ pre ++ t :: rest :=
          List.mem_append.mpr (Or.inr (List.mem_cons_self _ _))
        have hMM2 : (pre ++ [scheduleTask cal cs t m]) ++ rest =
            pre ++ scheduleTask cal cs t m :: rest := by simp
        apply ih
        · rw [hMM2]
          intro u hu
          rcases List.mem_append.mp hu with h1 | h2
          · exact hOff u (List.mem_append.mpr (Or.inl h1))
          · rcases List.mem_cons.mp h2 with rfl | h3
            · exact offsetOk_scheduleTask cal cs t m (hOff t htmem)
            · exact hOff u (List.mem_append.mpr (Or.inr (List.mem_cons_of_mem _ h3)))
        · rw [hMM2]
          exact invC1_step cal cs start pre rest t pr m hInv (hOff t htmem) hc hcp

theorem schedLoop_invC1 (cal : Cal) (cs : List String) (start : Int) :
    ∀ (f : Nat) (ts : List Task) (pr : List String),
      (∀ u ∈ ts, offsetOk u) → InvC1 ts pr →
      ∃ pr', InvC1 (schedLoop cal cs start f ts pr) pr' := by
  intro f
  induction f with
  | zero =>
    intro ts pr hOff hInv
    rw [schedLoop_zero]
    exact ⟨pr, hInv⟩
  | succ f ih =>
    intro ts pr hOff hInv
    rw [schedLoop_succ]
    by_cases hg : pr.length < ts.length
    · rw [if_pos hg]
      have hpa := passAux_invC1 cal cs start ts [] pr false (by simpa using hOff)
        (by simpa using hInv)
      by_cases hp : (passAux cal cs start [] ts pr false).2.2
      · rw [if_pos hp]
        exact ih _ _ hpa.1 hpa.2
      · rw [if_neg hp]
        exact ⟨_, hpa.2⟩
    · rw [if_neg hg]
      exact ⟨pr, hInv⟩

theorem invC1_reset (ts : List Task) : InvC1 (resetTasks ts) [] := by
  refine ⟨?_, ?_, ?_, ?_⟩
  · intro t ht
    obtain ⟨h1, h2⟩ := resetTasksFrom_computed_none 0 ts t ht
    rw [h1, h2]
  · intro t ht hne
    exact absurd (resetTasksFrom_computed_none 0 ts t ht).2 hne
  · intro x y hx hy hxy hxe hye
    exact absurd (resetTasksFrom_computed_none 0 ts x hx).2 hxe
  · intro u hu s hus
    rw [(resetTasksFrom_computed_none 0 ts u hu).1] at hus
    cases hus

theorem resetTasksFrom_offsetOk :
    ∀ (i : Nat) (ts : List Task), (∀ u ∈ ts, offsetOk u) →
      ∀ u ∈ resetTasksFrom i ts, offsetOk u := by
  intro i ts
  induction ts generalizing i with
  | nil => intro _ u hu; cases hu
  | cons t rest ih =>
    intro hOff u hu
    unfold resetTasksFrom at hu
    rcases List.mem_cons.mp hu with rfl | hmem
    · intro k hk
      exact hOff t (List.mem_cons_self _ _) k hk
    · exact ih (i + 1) (fun v hv => hOff v (List.mem_cons_of_mem _ hv)) u hmem

theorem calculateSchedule_pred_le (cal : Cal) (p : Project)
    (hOff : ∀ t ∈ p.tasks, offsetOk t) :
    ∀ t ∈ (calculateSchedule cal p).tasks, ∀ s : Int, t.computedStart = some s →
      ∀ pid ∈ t.predecessors, ∀ q ∈ (calculateSchedule cal p).tasks, q.id = pid →
        ∀ e : Int, q.computedEnd = some e → e ≤ s := by
  obtain ⟨pr', hInv⟩ := schedLoop_invC1 cal p.country p.startDate (p.tasks.length * 3)
    (resetTasks p.tasks) [] (resetTasksFrom_offsetOk 0 p.tasks hOff) (invC1_reset p.tasks)
  intro t ht s hs pid hpid q hq hqid e hqe
  have hts : (calculateSchedule cal p).tasks =
      schedLoop cal p.country p.startDate (p.tasks.length * 3) (resetTasks p.tasks) [] := rfl
  rw [hts] at ht hq
  exact (hInv.2.2.2 t ht s hs pid hpid).1 q hq hqid e hqe

theorem resetTasksFrom_congr :
    ∀ (i : Nat) (l1 l2 : List Task), l1.map Task.core = l2.map Task.core →
      resetTasksFrom i l1 = resetTasksFrom i l2 := by
  intro i l1
  induction l1 generalizing i with
  | nil =>
    intro l2 h
    cases l2 with
    | nil => rfl
    | cons y ys => simp at h
  | cons x xs ih =>
    intro l2 h
    cases l2 with
    | nil => simp at h
    | cons y ys =>
      simp only [List.map_cons, List.cons.injEq] at h
      unfold resetTasksFrom
      rw [ih (i + 1) ys h.2]
      have hhead :
          ({ x with
             serialNumber := some (i + 1), computedStart := none, computedEnd := none } : Task) =
          { y with
            serialNumber := some (i + 1), computedStart := none, computedEnd := none } := by
        calc ({ x with
                serialNumber := some (i + 1), computedStart := none, computedEnd := none } : Task)
            = { x.core with serialNumber := some (i + 1) } := rfl
          _ = { y.core with serialNumber := some (i + 1) } := by rw [h.1]
          _ = { y with
                serialNumber := some (i + 1), computedStart := none, computedEnd := none } := rfl
      rw [hhead]

theorem calcSchedule_congr (cal : Cal) (P1 P2 : Project) (h : ProjEquiv P1 P2) :
    calculateSchedule cal P1 = calculateSchedule cal P2 := by
  obtain ⟨hn, hs, hc, hv, ht⟩ := h
  obtain ⟨n1, s1, c1, t1, v1⟩ := P1
  obtain ⟨n2, s2, c2, t2, v2⟩ := P2
  have hn' : n1 = n2 := hn
  have hs' : s1 = s2 := hs
  have hc' : c1 = c2 := hc
  have hv' : v1 = v2 := hv
  have ht' : t1.map Task.core = t2.map Task.core := ht
  subst hn'
  subst hs'
  subst hc'
  subst hv'
  have hlen : t1.length = t2.length := by
    have := congrArg List.length ht'
    simpa using this
  have hr : resetTasks t1 = resetTasks t2 := resetTasksFrom_congr 0 t1 t2 ht'
  show Project.mk n1 s1 c1
      (schedLoop cal c1 s1 (t1.length * 3) (resetTasks t1) []) v1 =
    Project.mk n1 s1 c1
      (schedLoop cal c1 s1 (t2.length * 3) (resetTasks t2) []) v1
  rw [hlen, hr]

theorem foldl_congr_on_ids {α : Type} (G : α → Task → α)
    (hG : ∀ (acc : α) (x y : Task), x.id = y.id → G acc x = G acc y) :
    ∀ (l1 l2 : List Task), l1.map Task.id = l2.map Task.id →
      ∀ b : α, l1.foldl G b = l2.foldl G b := by
  intro l1
  induction l1 with
  | nil =>
    intro l2 h b
    cases l2 with
    | nil => rfl
    | cons y ys => simp at h
  | cons x xs ih =>
    intro l2 h b
    cases l2 with
    | nil => simp at h
    | cons y ys =>
      simp only [List.map_cons, List.cons.injEq] at h
      rw [List.foldl_cons, List.foldl_cons, hG b x y h.1]
      exact ih ys h.2 (G b y)

theorem filter_map_id_congr (p : Task → Bool) (hp : ∀ t : Task, p t.core = p t) :
    ∀ (l1 l2 : List Task), l1.map Task.core = l2.map Task.core →
      (l1.filter p).map Task.id = (l2.filter p).map Task.id := by
  intro l1
  induction l1 with
  | nil =>
    intro l2 h
    cases l2 with
    | nil => rfl
    | cons y ys => simp at h
  | cons x xs ih =>
    intro l2 h
    cases l2 with
    | nil => simp at h
    | cons y ys =>
      simp only [List.map_cons, List.cons.injEq] at h
      have hxy : p x = p y := by rw [← hp x, h.1, hp y]
      have hid0 := congrArg Task.id h.1
      have hid : x.id = y.id := hid0
      rw [List.filter_cons, List.filter_cons]
      by_cases hpx : p x = true
      · rw [if_pos hpx, if_pos (by rw [← hxy]; exact hpx)]
        simp only [List.map_cons]
        rw [hid, ih ys h.2]
      · rw [if_neg hpx, if_neg (by rw [← hxy]; exact hpx)]
        exact ih ys h.2

theorem scaleBlock_map_core_congr (p : Task → Bool) (hp : ∀ t : Task, p t.core = p t)
    (r : ℚ) :
    ∀ (l1 l2 : List Task), l1.map Task.core = l2.map Task.core →
      (scaleBlock p r l1).map Task.core = (scaleBlock p r l2).map Task.core := by
  intro l1
  induction l1 with
  | nil =>
    intro l2 h
    cases l2 with
    | nil => rfl
    | cons y ys => simp at h
  | cons x xs ih =>
    intro l2 h
    cases l2 with
    | nil => simp at h
    | cons y ys =>
      simp only [List.map_cons, List.cons.injEq] at h
      have hxy : p x = p y := by rw [← hp x, h.1, hp y]
      have hdur0 := congrArg Task.durationWeeks h.1
      have hdur : x.durationWeeks = y.durationWeeks := hdur0
      have horig0 := congrArg Task.originalDurationWeeks h.1
      have horig : x.originalDurationWeeks = y.originalDurationWeeks := horig0
      show (if p x = true ∧ 0 < x.durationWeeks then
          { x with
            durationWeeks := x.originalDurationWeeks * r, compressionRatio := r }
          else x).core ::
          (scaleBlock p r xs).map Task.core = _
      show _ = (if p y = true ∧ 0 < y.durationWeeks then
          { y with
            durationWeeks := y.originalDurationWeeks * r, compressionRatio := r }
          else y).core ::
          (scaleBlock p r ys).map Task.core
      rw [ih ys h.2]
      by_cases hcx : p x = true ∧ 0 < x.durationWeeks
      · have hcy : p y = true ∧ 0 < y.durationWeeks := by
          rw [← hxy, ← hdur]
          exact hcx
        rw [if_pos hcx, if_pos hcy]
        have hhead :
            ({ x with
               durationWeeks := x.originalDurationWeeks * r, compressionRatio := r } : Task).core =
            ({ y with
              durationWeeks := y.originalDurationWeeks * r, compressionRatio := r } : Task).core := by
          calc ({ x with
                  durationWeeks := x.originalDurationWeeks * r, compressionRatio := r } : Task).core
              = { x.core with
                  durationWeeks := x.originalDurationWeeks * r, compressionRatio := r } := rfl
            _ = { y.core with
                  durationWeeks := y.originalDurationWeeks * r, compressionRatio := r } := by
                rw [h.1, horig]
            _ = ({ y with
                  durationWeeks := y.originalDurationWeeks * r, compressionRatio := r } : Task).core := rfl
        rw [hhead]
      · have hcy : ¬ (p y = true ∧ 0 < y.durationWeeks) := by
          rw [← hxy, ← hdur]
          exact hcx
        rw [if_neg hcx, if_neg hcy, h.1]

theorem block1MaxEnd_congr (cal : Cal) (P1 P2 : Project) (hE : ProjEquiv P1 P2) :
    block1MaxEnd cal P1 = block1MaxEnd cal P2 := by
  obtain ⟨hn, hs, hc, hv, ht⟩ := hE
  unfold block1MaxEnd
  rw [calcSchedule_congr cal P1 P2 ⟨hn, hs, hc, hv, ht⟩, hs]
  exact foldl_congr_on_ids _ (fun acc x y hxy => by rw [hxy])
    (P1.tasks.filter phaseBlock1) (P2.tasks.filter phaseBlock1)
    (filter_map_id_congr phaseBlock1 (fun t => rfl) P1.tasks P2.tasks ht)
    P2.startDate

theorem block1Apply_congr (cal : Cal) (P1 P2 : Project) (m : Int)
    (hE : ProjEquiv P1 P2) :
    ProjEquiv (block1Apply cal P1 m) (block1Apply cal P2 m) := by
  obtain ⟨hn, hs, hc, hv, ht⟩ := hE
  have hme := block1MaxEnd_congr cal P1 P2 ⟨hn, hs, hc, hv, ht⟩
  have hstd : block1Standard cal P1 = block1Standard cal P2 := by
    unfold block1Standard
    rw [hme, hs, hc]
  have hav : block1Available cal P1 m = block1Available cal P2 m := by
    unfold block1Available
    rw [hs, hc]
  unfold block1Apply
  rw [hstd, hav]
  by_cases hcond : 0 < block1Standard cal P2 ∧ 0 < block1Available cal P2 m
  · rw [if_pos hcond, if_pos hcond]
    refine ⟨hn, hs, hc, hv, ?_⟩
    show (scaleBlock phaseBlock1 _ P1.tasks).map Task.core =
      (scaleBlock phaseBlock1 _ P2.tasks).map Task.core
    exact scaleBlock_map_core_congr phaseBlock1 (fun t => rfl) _ P1.tasks P2.tasks ht
  · rw [if_neg hcond, if_neg hcond]
    exact ⟨hn, hs, hc, hv, ht⟩

theorem block2Stats_congr (cal : Cal) (P1 P2 : Project) (hE : ProjEquiv P1 P2) :
    block2Stats cal P1 = block2Stats cal P2 := by
  obtain ⟨hn, hs, hc, hv, ht⟩ := hE
  unfold block2Stats
  rw [calcSchedule_congr cal P1 P2 ⟨hn, hs, hc, hv, ht⟩]
  exact foldl_congr_on_ids _ (fun acc x y hxy => by rw [hxy])
    (P1.tasks.filter (fun t => !phaseBlock1 t)) (P2.tasks.filter (fun t => !phaseBlock1 t))
    (filter_map_id_congr (fun t => !phaseBlock1 t) (fun t => rfl) P1.tasks P2.tasks ht)
    (none, 0)

theorem block2ApplyWith_congr (cal : Cal) (P1 P2 : Project) (s minStart : Int)
    (hE : ProjEquiv P1 P2) :
    ProjEquiv (block2ApplyWith cal P1 s minStart) (block2ApplyWith cal P2 s minStart) := by
  have hmx : block2MaxEnd cal P1 = block2MaxEnd cal P2 := by
    unfold block2MaxEnd
    rw [block2Stats_congr cal P1 P2 hE]
  obtain ⟨hn, hs, hc, hv, ht⟩ := hE
  unfold block2ApplyWith
  rw [hmx, hc]
  by_cases hlt : minStart < s
  · rw [if_pos hlt, if_pos hlt]
    by_cases hcond : 0 < getBusinessDays cal P2.country minStart (block2MaxEnd cal P2) ∧
        0 < getBusinessDays cal P2.country minStart s
    · rw [if_pos hcond, if_pos hcond]
      refine ⟨hn, hs, rfl, hv, ?_⟩
      show (scaleBlock (fun t => !phaseBlock1 t) _ P1.tasks).map Task.core =
        (scaleBlock (fun t => !phaseBlock1 t) _ P2.tasks).map Task.core
      exact scaleBlock_map_core_congr (fun t => !phaseBlock1 t) (fun t => rfl) _
        P1.tasks P2.tasks ht
    · rw [if_neg hcond, if_neg hcond]
      exact ⟨hn, hs, hc, hv, ht⟩
  · rw [if_neg hlt, if_neg hlt]
    exact ⟨hn, hs, hc, hv, ht⟩

theorem block2Apply_congr (cal : Cal) (P1 P2 : Project) (s : Int)
    (hE : ProjEquiv P1 P2) :
    ProjEquiv (block2Apply cal P1 s) (block2Apply cal P2 s) := by
  have hmn : block2MinStart cal P1 = block2MinStart cal P2 := by
    unfold block2MinStart
    rw [block2Stats_congr cal P1 P2 hE]
  unfold block2Apply
  rw [hmn]
  cases hms : block2MinStart cal P2 with
  | none => exact hE
  | some minStart => exact block2ApplyWith_congr cal P1 P2 s minStart hE

theorem compressCore_congr (cal : Cal) (P1 P2 : Project) (m s : Option Int)
    (hE : ProjEquiv P1 P2) :
    compressCore cal P1 m s = compressCore cal P2 m s := by
  cases m with
  | none =>
    cases s with
    | none => exact calcSchedule_congr cal P1 P2 hE
    | some sd =>
      show calculateSchedule cal (block2Apply cal P1 sd) =
        calculateSchedule cal (block2Apply cal P2 sd)
      exact calcSchedule_congr cal _ _ (block2Apply_congr cal P1 P2 sd hE)
  | some md =>
    cases s with
    | none =>
      show calculateSchedule cal (block1Apply cal P1 md) =
        calculateSchedule cal (block1Apply cal P2 md)
      exact calcSchedule_congr cal _ _ (block1Apply_congr cal P1 P2 md hE)
    | some sd =>
      show calculateSchedule cal (block2Apply cal (block1Apply cal P1 md) sd) =
        calculateSchedule cal (block2Apply cal (block1Apply cal P2 md) sd)
      exact calcSchedule_congr cal _ _
        (block2Apply_congr cal _ _ sd (block1Apply_congr cal P1 P2 md hE))

theorem map_f_of_core {β : Type} (f : Task → β) (hf : ∀ t : Task, f t.core = f t) :
    ∀ l1 l2 : List Task, l1.map Task.core = l2.map Task.core →
      l1.map f = l2.map f := by
  intro l1 l2 h
  have hsc : f ∘ Task.core = f := funext hf
  have e1 : ∀ l : List Task, (l.map Task.core).map f = l.map f := by
    intro l
    rw [List.map_map, hsc]
  rw [← e1 l1, ← e1 l2, h]

theorem calcSchedule_map_stat (cal : Cal) (P : Project) :
    ((calculateSchedule cal P).tasks).map Task.stat = P.tasks.map Task.stat :=
  map_f_of_core Task.stat (fun _ => rfl) _ _ (calculateSchedule_map_core cal P)

theorem scaleBlock_map_stat (p : Task → Bool) (r : ℚ) (ts : List Task) :
    (scaleBlock p r ts).map Task.stat = ts.map Task.stat := by
  induction ts with
  | nil => rfl
  | cons x xs ih =>
    show (if p x = true ∧ 0 < x.durationWeeks then
        { x with
          durationWeeks := x.originalDurationWeeks * r, compressionRatio := r }
        else x).stat ::
        (scaleBlock p r xs).map Task.stat = x.stat :: xs.map Task.stat
    rw [ih]
    by_cases hcx : p x = true ∧ 0 < x.durationWeeks
    · rw [if_pos hcx]
      rfl
    · rw [if_neg hcx]

theorem resetDurations_map_stat (ts : List Task) :
    (resetDurations ts).map Task.stat = ts.map Task.stat := by
  induction ts with
  | nil => rfl
  | cons x xs ih =>
    show (if 0 < x.originalDurationWeeks then
        { x with
          durationWeeks := x.originalDurationWeeks, compressionRatio := 1 }
        else x).stat ::
        (resetDurations xs).map Task.stat = x.stat :: xs.map Task.stat
    rw [ih]
    by_cases hcx : 0 < x.originalDurationWeeks
    · rw [if_pos hcx]
      rfl
    · rw [if_neg hcx]

theorem block1Apply_map_stat (cal : Cal) (P : Project) (m : Int) :
    ((block1Apply cal P m).tasks).map Task.stat = P.tasks.map Task.stat := by
  unfold block1Apply
  split
  · exact scaleBlock_map_stat _ _ _
  · rfl

theorem block2ApplyWith_map_stat (cal : Cal) (P : Project) (s minStart : Int) :
    ((block2ApplyWith cal P s minStart).tasks).map Task.stat = P.tasks.map Task.stat := by
  unfold block2ApplyWith
  split
  · split
    · exact scaleBlock_map_stat _ _ _
    · rfl
  · rfl

theorem block2Apply_map_stat (cal : Cal) (P : Project) (s : Int) :
    ((block2Apply cal P s).tasks).map Task.stat = P.tasks.map Task.stat := by
  unfold block2Apply
  cases block2MinStart cal P with
  | none => rfl
  | some minStart => exact block2ApplyWith_map_stat cal P s minStart

theorem compressCore_map_stat (cal : Cal) (P : Project) (m s : Option Int) :
    ((compressCore cal P m s).tasks).map Task.stat = P.tasks.map Task.stat := by
  cases m with
  | none =>
    cases s with
    | none => exact calcSchedule_map_stat cal P
    | some sd =>
      show ((calculateSchedule cal (block2Apply cal P sd)).tasks).map Task.stat = _
      rw [calcSchedule_map_stat, block2Apply_map_stat]
  | some md =>
    cases s with
    | none =>
      show ((calculateSchedule cal (block1Apply cal P md)).tasks).map Task.stat = _
      rw [calcSchedule_map_stat, block1Apply_map_stat]
    | some sd =>
      show ((calculateSchedule cal
        (block2Apply cal (block1Apply cal P md) sd)).tasks).map Task.stat = _
      rw [calcSchedule_map_stat, block2Apply_map_stat, block1Apply_map_stat]

theorem compressSchedule_map_stat (cal : Cal) (p : Project) (m s : Option Int) :
    ((compressSchedule cal p m s).tasks).map Task.stat = p.tasks.map Task.stat := by
  unfold compressSchedule
  rw [compressCore_map_stat]
  show (resetDurations p.tasks).map Task.stat = _
  exact resetDurations_map_stat p.tasks

theorem block1Apply_fields (cal : Cal) (P : Project) (m : Int) :
    (block1Apply cal P m).name = P.name ∧ (block1Apply cal P m).startDate = P.startDate ∧
      (block1Apply cal P m).country = P.country ∧
      (block1Apply cal P m).vddEnabled = P.vddEnabled := by
  unfold block1Apply
  split
  · exact ⟨rfl, rfl, rfl, rfl⟩
  · exact ⟨rfl, rfl, rfl, rfl⟩

theorem block2ApplyWith_fields (cal : Cal) (P : Project) (s minStart : Int) :
    (block2ApplyWith cal P s minStart).name = P.name ∧
      (block2ApplyWith cal P s minStart).startDate = P.startDate ∧
      (block2ApplyWith cal P s minStart).country = P.country ∧
      (block2ApplyWith cal P s minStart).vddEnabled = P.vddEnabled := by
  unfold block2ApplyWith
  split
  · split
    · exact ⟨rfl, rfl, rfl, rfl⟩
    · exact ⟨rfl, rfl, rfl, rfl⟩
  · exact ⟨rfl, rfl, rfl, rfl⟩

theorem block2Apply_fields (cal : Cal) (P : Project) (s : Int) :
    (block2Apply cal P s).name = P.name ∧ (block2Apply cal P s).startDate = P.startDate ∧
      (block2Apply cal P s).country = P.country ∧
      (block2Apply cal P s).vddEnabled = P.vddEnabled := by
  unfold block2Apply
  cases block2MinStart cal P with
  | none => exact ⟨rfl, rfl, rfl, rfl⟩
  | some minStart => exact block2ApplyWith_fields cal P s minStart

theorem compressCore_fields (cal : Cal) (P : Project) (m s : Option Int) :
    (compressCore cal P m s).name = P.name ∧
      (compressCore cal P m s).startDate = P.startDate ∧
      (compressCore cal P m s).country = P.country ∧
      (compressCore cal P m s).vddEnabled = P.vddEnabled := by
  cases m with
  | none =>
    cases s with
    | none => exact ⟨rfl, rfl, rfl, rfl⟩
    | some sd =>
      show (calculateSchedule cal (block2Apply cal P sd)).name = P.name ∧ _
      obtain ⟨h1, h2, h3, h4⟩ := block2Apply_fields cal P sd
      exact ⟨h1, h2, h3, h4⟩
  | some md =>
    cases s with
    | none =>
      obtain ⟨h1, h2, h3, h4⟩ := block1Apply_fields cal P md
      exact ⟨h1, h2, h3, h4⟩
    | some sd =>
      obtain ⟨g1, g2, g3, g4⟩ := block1Apply_fields cal P md
      obtain ⟨h1, h2, h3, h4⟩ := block2Apply_fields cal (block1Apply cal P md) sd
      exact ⟨h1.trans g1, h2.trans g2, h3.trans g3, h4.trans g4⟩

theorem compressSchedule_fields (cal : Cal) (p : Project) (m s : Option Int) :
    (compressSchedule cal p m s).name = p.name ∧
      (compressSchedule cal p m s).startDate = p.startDate ∧
      (compressSchedule cal p m s).country = p.country ∧
      (compressSchedule cal p m s).vddEnabled = p.vddEnabled := by
  unfold compressSchedule
  exact compressCore_fields cal _ m s

theorem core_resetDuration_statTask (t : Task) (hpos : 0 < t.originalDurationWeeks) :
    (Task.core (if 0 < t.originalDurationWeeks then
      { t with durationWeeks := t.originalDurationWeeks, compressionRatio := 1 }
      else t)) = statTask t.stat := by
  rw [if_pos hpos]
  rfl

theorem resetDurations_map_core_congr :
    ∀ (l1 l2 : List Task), l1.map Task.stat = l2.map Task.stat →
      (∀ t ∈ l2, 0 < t.originalDurationWeeks) →
      (resetDurations l1).map Task.core = (resetDurations l2).map Task.core := by
  intro l1
  induction l1 with
  | nil =>
    intro l2 h _
    cases l2 with
    | nil => rfl
    | cons y ys => simp at h
  | cons x xs ih =>
    intro l2 h hpos
    cases l2 with
    | nil => simp at h
    | cons y ys =>
      simp only [List.map_cons, List.cons.injEq] at h
      have hposy : 0 < y.originalDurationWeeks := hpos y (List.mem_cons_self _ _)
      have hposx : 0 < x.originalDurationWeeks := by
        have : x.stat.odw = y.stat.odw := by rw [h.1]
        have hox : x.stat.odw = x.originalDurationWeeks := rfl
        have hoy : y.stat.odw = y.originalDurationWeeks := rfl
        rw [hox, hoy] at this
        rw [this]
        exact hposy
      show (Task.core (if 0 < x.originalDurationWeeks then
          { x with durationWeeks := x.originalDurationWeeks, compressionRatio := 1 }
          else x)) :: (resetDurations xs).map Task.core = _
      show _ = (Task.core (if 0 < y.originalDurationWeeks then
          { y with durationWeeks := y.originalDurationWeeks, compressionRatio := 1 }
          else y)) :: (resetDurations ys).map Task.core
      rw [core_resetDuration_statTask x hposx, core_resetDuration_statTask y hposy,
        h.1, ih ys h.2 (fun t htt => hpos t (List.mem_cons_of_mem _ htt))]

theorem compress_idem_strong (cal : Cal) (p : Project) (m s : Option Int)
    (hpos : ∀ t ∈ p.tasks, 0 < t.originalDurationWeeks) :
    compressSchedule cal (compressSchedule cal p m s) m s =
      compressSchedule cal p m s := by
  have hstat : ((compressSchedule cal p m s).tasks).map Task.stat =
      p.tasks.map Task.stat := compressSchedule_map_stat cal p m s
  obtain ⟨h1, h2, h3, h4⟩ := compressSchedule_fields cal p m s
  have hE : ProjEquiv
      { compressSchedule cal p m s with
        tasks := resetDurations (compressSchedule cal p m s).tasks }
      { p with tasks := resetDurations p.tasks } := by
    refine ⟨h1, h2, h3, h4, ?_⟩
    show (resetDurations (compressSchedule cal p m s).tasks).map Task.core =
      (resetDurations p.tasks).map Task.core
    exact resetDurations_map_core_congr _ _ hstat hpos
  calc compressSchedule cal (compressSchedule cal p m s) m s
      = compressCore cal
          { compressSchedule cal p m s with
            tasks := resetDurations (compressSchedule cal p m s).tasks } m s := rfl
    _ = compressCore cal { p with tasks := resetDurations p.tasks } m s :=
        compressCore_congr cal _ _ m s hE
    _ = compressSchedule cal p m s := rfl

theorem isBusinessDay_split (cal : Cal) (cs : List String) (d : Int)
    (h : isBusinessDay cal cs d = true) :
    isWeekendDay d = false ∧ isHolidayDay cal cs d = false := by
  unfold isBusinessDay at h
  constructor
  · cases hw : isWeekendDay d
    · rfl
    · rw [hw] at h
      simp at h
  · cases hh : isHolidayDay cal cs d
    · rfl
    · rw [hh] at h
      simp at h

theorem compress_none_restores (cal : Cal) (p : Project) :
    ∀ t ∈ (compressSchedule cal p none none).tasks, 0 < t.originalDurationWeeks →
      t.durationWeeks = t.originalDurationWeeks ∧ t.compressionRatio = 1 := by
  intro t ht hpos
  have hcore : ((compressSchedule cal p none none).tasks).map Task.core =
      (resetDurations p.tasks).map Task.core := by
    show ((calculateSchedule cal { p with tasks := resetDurations p.tasks }).tasks).map
      Task.core = _
    exact calculateSchedule_map_core cal { p with tasks := resetDurations p.tasks }
  have hmem : t.core ∈ ((compressSchedule cal p none none).tasks).map Task.core :=
    List.mem_map.mpr ⟨t, ht, rfl⟩
  rw [hcore] at hmem
  obtain ⟨t0, ht0mem, ht0c⟩ := List.mem_map.mp hmem
  obtain ⟨t1, ht1mem, ht1⟩ := List.mem_map.mp ht0mem
  -- t0 = the reset image of t1, and t0.core = t.core
  have hdur0 := congrArg Task.durationWeeks ht0c
  have hdur : t0.durationWeeks = t.durationWeeks := hdur0
  have horig0 := congrArg Task.originalDurationWeeks ht0c
  have horig : t0.originalDurationWeeks = t.originalDurationWeeks := horig0
  have hratio0 := congrArg Task.compressionRatio ht0c
  have hratio : t0.compressionRatio = t.compressionRatio := hratio0
  by_cases h1 : 0 < t1.originalDurationWeeks
  · have ht0eq : t0 = { t1 with
        durationWeeks := t1.originalDurationWeeks, compressionRatio := 1 } := by
      rw [← ht1, if_pos h1]
    rw [ht0eq] at hdur horig hratio
    simp only at hdur horig hratio
    constructor
    · rw [← hdur, ← horig]
    · rw [← hratio]
  · exfalso
    have ht0eq : t0 = t1 := by rw [← ht1, if_neg h1]
    rw [ht0eq] at horig
    rw [horig] at h1
    exact h1 hpos

theorem shortenPhase3_map_id :
    ∀ ts : List Task, (shortenPhase3 ts).map Task.id = ts.map Task.id := by
  intro ts
  induction ts with
  | nil => rfl
  | cons t rest ih =>
    unfold shortenPhase3
    by_cases hc : strContains t.name ("Confirmatory Due Diligence") = true
    · rw [if_pos hc]
      by_cases hd : 3 < t.durationWeeks
      · rw [if_pos hd]
        rfl
      · rw [if_neg hd]
    · rw [if_neg hc]
      simp only [List.map_cons]
      rw [ih]

theorem shortenPhase3_map_preds :
    ∀ ts : List Task,
      (shortenPhase3 ts).map Task.predecessors = ts.map Task.predecessors := by
  intro ts
  induction ts with
  | nil => rfl
  | cons t rest ih =>
    unfold shortenPhase3
    by_cases hc : strContains t.name ("Confirmatory Due Diligence") = true
    · rw [if_pos hc]
      by_cases hd : 3 < t.durationWeeks
      · rw [if_pos hd]
        rfl
      · rw [if_neg hd]
    · rw [if_neg hc]
      simp only [List.map_cons]
      rw [ih]

theorem injectVdd_inject_eq (p : Project) (hv : p.vddEnabled = true)
    (hs : p.tasks.any (fun t => t.id == "VDD.1") = false) :
    injectVddTasks p =
      { p with tasks := (shortenPhase3
          (p.tasks.take (vddInsertIdx p.tasks) ++ vddTasks ++
            p.tasks.drop (vddInsertIdx p.tasks))) } := by
  unfold injectVddTasks
  rw [hv]
  rw [if_neg (by simp), if_neg (by rw [hs]; exact Bool.false_ne_true)]

theorem injectVdd_noop_disabled (p : Project) (hv : p.vddEnabled = false) :
    injectVddTasks p = p := by
  unfold injectVddTasks
  rw [hv]
  rfl

theorem injectVdd_noop_present (p : Project)
    (hs : p.tasks.any (fun t => t.id == "VDD.1") = true) :
    injectVddTasks p = p := by
  unfold injectVddTasks
  cases hv : p.vddEnabled
  · rfl
  · rw [if_neg (by simp), if_pos hs]

theorem injectVdd_shape (p : Project) (hv : p.vddEnabled = true)
    (hs : p.tasks.any (fun t => t.id == "VDD.1") = false) :
    (injectVddTasks p).tasks.map Task.id =
      (p.tasks.take (vddInsertIdx p.tasks)).map Task.id ++
        ["VDD.1", "VDD.2", "VDD.3", "VDD.4"] ++
        (p.tasks.drop (vddInsertIdx p.tasks)).map Task.id ∧
    (injectVddTasks p).tasks.map Task.predecessors =
      (p.tasks.take (vddInsertIdx p.tasks)).map Task.predecessors ++
        [["T1.1"], ["VDD.1"], ["VDD.1"], ["VDD.2", "VDD.3"]] ++
        (p.tasks.drop (vddInsertIdx p.tasks)).map Task.predecessors := by
  rw [injectVdd_inject_eq p hv hs]
  constructor
  · show (shortenPhase3 _).map Task.id = _
    rw [shortenPhase3_map_id]
    simp [List.map_append, vddTasks]
  · show (shortenPhase3 _).map Task.predecessors = _
    rw [shortenPhase3_map_preds]
    simp [List.map_append, vddTasks]

theorem any_eq_of_map_id (l1 l2 : List Task) (h : l1.map Task.id = l2.map Task.id)
    (s : String) :
    l1.any (fun t => t.id == s) = l2.any (fun t => t.id == s) := by
  have e1 : ∀ l : List Task, l.any (fun t => t.id == s) =
      (l.map Task.id).any (fun i => i == s) := by
    intro l
    induction l with
    | nil => rfl
    | cons x xs ih =>
      simp only [List.any_cons, List.map_cons]
      rw [ih]
  rw [e1 l1, e1 l2, h]

theorem injectVdd_idem (p : Project) :
    injectVddTasks (injectVddTasks p) = injectVddTasks p := by
  cases hv : p.vddEnabled with
  | false =>
    rw [injectVdd_noop_disabled p hv, injectVdd_noop_disabled p hv]
  | true =>
    cases hs : p.tasks.any (fun t => t.id == "VDD.1") with
    | true =>
      rw [injectVdd_noop_present p hs, injectVdd_noop_present p hs]
    | false =>
      apply injectVdd_noop_present
      obtain ⟨hid, _⟩ := injectVdd_shape p hv hs
      rw [any_eq_of_map_id ((injectVddTasks p).tasks)
        (p.tasks.take (vddInsertIdx p.tasks) ++ vddTasks ++
          p.tasks.drop (vddInsertIdx p.tasks))]
      · simp [List.any_append, vddTasks]
      · rw [hid]
        simp [List.map_append, vddTasks]

theorem block1Apply_skip (cal : Cal) (P : Project) (m : Int)
    (h : block1Standard cal P = 0 ∨ block1Available cal P m = 0) :
    block1Apply cal P m = P := by
  unfold block1Apply
  rw [if_neg (by omega)]

theorem block2ApplyWith_skip (cal : Cal) (P : Project) (s ms : Int)
    (h : getBusinessDays cal P.country ms (block2MaxEnd cal P) = 0 ∨
      getBusinessDays cal P.country ms s = 0) :
    block2ApplyWith cal P s ms = P := by
  unfold block2ApplyWith
  by_cases hlt : ms < s
  · rw [if_pos hlt, if_neg (by omega)]
  · rw [if_neg hlt]

/-- C1 (amended): for every project whose tasks all have a nonnegative (or
absent) manualStartOffset, every edge pred → task with both endpoints
scheduled satisfies pred.computedEnd ≤ task.computedStart.  (As frozen, for
arbitrary offsets, the claim is false: see the counterexample.) -/
theorem claim_C1 : ∀ (cal : Cal) (p : Project), (∀ t ∈ p.tasks, offsetOk t) →
    ∀ t ∈ (calculateSchedule cal p).tasks, ∀ s : Int, t.computedStart = some s →
    ∀ pid ∈ t.predecessors, ∀ q ∈ (calculateSchedule cal p).tasks, q.id = pid →
    ∀ e : Int, q.computedEnd = some e → e ≤ s := by
  intro cal p hOff
  exact calculateSchedule_pred_le cal p hOff

/-- C1 counterexample: with a manualStartOffset of -7 days, the dependent
task B is scheduled to start (day 4) before its predecessor A ends (day 11),
so the predecessor-ordering claim fails for arbitrary offsets. -/
theorem claim_C1_counterexample :
    (calculateSchedule cal0 pNegOff).tasks.map Task.id = ["A", "B"] ∧
    (calculateSchedule cal0 pNegOff).tasks.map Task.predecessors = [[], ["A"]] ∧
    (calculateSchedule cal0 pNegOff).tasks.map (fun t => t.computedEnd) =
      [some 11, some 4] ∧
    (calculateSchedule cal0 pNegOff).tasks.map (fun t => t.computedStart) =
      [some 11, some 4] ∧
    ¬ ((11 : Int) ≤ 4) := by
  decide

/-- C1 witness: the amended theorem applied to a concrete two-task chain. -/
theorem claim_C1_witness :
    (∀ t ∈ pChain.tasks, offsetOk t) ∧ (8 : Int) ≤ 8 := by
  have hoff : ∀ t ∈ pChain.tasks, offsetOk t := by
    intro t ht
    rcases List.mem_cons.mp ht with rfl | ht2
    · intro k hk
      cases hk
    · rcases List.mem_singleton.mp ht2 with rfl
      intro k hk
      cases hk
  refine ⟨hoff, ?_⟩
  exact claim_C1 calH pChain hoff
    { mkTask "B" 2 ["A"] with
      serialNumber := some 2, computedStart := some 8, computedEnd := some 22 }
    (by decide) 8 rfl "A" (by decide)
    { mkTask "A" 1 [] with
      serialNumber := some 1, computedStart := some 1, computedEnd := some 8 }
    (by decide) rfl 8 rfl

/-- C2 (amended): compressSchedule is idempotent on projects all of whose
tasks have a positive originalDurationWeeks: a second call with the same
arguments yields task-for-task identical durationWeeks and compressionRatio.
(As frozen, for every project, the claim is false: a task with
originalDurationWeeks = 0 but positive durationWeeks escapes the reset and
skews the second call's standardDays; see the counterexample.) -/
theorem claim_C2 : ∀ (cal : Cal) (p : Project) (m s : Option Int),
    (∀ t ∈ p.tasks, 0 < t.originalDurationWeeks) →
    ((compressSchedule cal (compressSchedule cal p m s) m s).tasks.map
        (fun t => t.durationWeeks) =
      (compressSchedule cal p m s).tasks.map (fun t => t.durationWeeks)) ∧
    ((compressSchedule cal (compressSchedule cal p m s) m s).tasks.map
        (fun t => t.compressionRatio) =
      (compressSchedule cal p m s).tasks.map (fun t => t.compressionRatio)) := by
  intro cal p m s hpos
  rw [compress_idem_strong cal p m s hpos]
  exact ⟨rfl, rfl⟩

set_option maxRecDepth 1000000 in
/-- C2 counterexample: on a project containing a task with
originalDurationWeeks = 0 and durationWeeks = 1, compressing twice with the
same marketing date gives different durations/ratios than compressing once
(the second call computes standardDays = 10 instead of 15, so the ratio of
the other task changes from 1/3 to 1/2). -/
theorem claim_C2_counterexample :
    ¬ (((compressSchedule cal0 (compressSchedule cal0 pIdemBad (some 11) none)
          (some 11) none).tasks.map (fun t => t.durationWeeks) =
        (compressSchedule cal0 pIdemBad (some 11) none).tasks.map
          (fun t => t.durationWeeks)) ∧
       ((compressSchedule cal0 (compressSchedule cal0 pIdemBad (some 11) none)
          (some 11) none).tasks.map (fun t => t.compressionRatio) =
        (compressSchedule cal0 pIdemBad (some 11) none).tasks.map
          (fun t => t.compressionRatio))) := by
  decide

set_option maxRecDepth 1000000 in
/-- C2 witness: idempotence at a concrete all-positive-baseline project. -/
theorem claim_C2_witness :
    (∀ t ∈ pChain.tasks, 0 < t.originalDurationWeeks) ∧
    (((compressSchedule calH (compressSchedule calH pChain (some 11) none)
        (some 11) none).tasks.map (fun t => t.durationWeeks) =
      (compressSchedule calH pChain (some 11) none).tasks.map
        (fun t => t.durationWeeks)) ∧
     ((compressSchedule calH (compressSchedule calH pChain (some 11) none)
        (some 11) none).tasks.map (fun t => t.compressionRatio) =
      (compressSchedule calH pChain (some 11) none).tasks.map
        (fun t => t.compressionRatio))) :=
  ⟨by decide, claim_C2 calH pChain (some 11) none (by decide)⟩

/-- C3 (amended): when the injector actually injects, the 4-task subgraph is
inserted immediately after the first task in list order whose id is one of
T1.1/F1.1/D1.1 (position 0 if none), no existing task's predecessors change,
and the entry task VDD.1 always depends on the FIXED id "T1.1" — not on the
kickoff task that anchored the insertion.  (As frozen — "wired to depend on
that kickoff task" — the claim is false when the anchor is F1.1 or D1.1; see
the counterexample.) -/
theorem claim_C3 : ∀ p : Project, p.vddEnabled = true →
    p.tasks.any (fun t => t.id == "VDD.1") = false →
    (injectVddTasks p).tasks.map Task.id =
      (p.tasks.take (vddInsertIdx p.tasks)).map Task.id ++
        ["VDD.1", "VDD.2", "VDD.3", "VDD.4"] ++
        (p.tasks.drop (vddInsertIdx p.tasks)).map Task.id ∧
    (injectVddTasks p).tasks.map Task.predecessors =
      (p.tasks.take (vddInsertIdx p.tasks)).map Task.predecessors ++
        [["T1.1"], ["VDD.1"], ["VDD.1"], ["VDD.2", "VDD.3"]] ++
        (p.tasks.drop (vddInsertIdx p.tasks)).map Task.predecessors := by
  intro p hv hs
  exact injectVdd_shape p hv hs

/-- C3 counterexample: with only the kickoff task F1.1 present, the subgraph
is inserted after it but VDD.1's predecessor list is ["T1.1"], a dangling id,
not ["F1.1"], so the entry task is not wired to the found kickoff task. -/
theorem claim_C3_counterexample :
    (injectVddTasks pVddF).tasks.map Task.id =
      ["F1.1", "VDD.1", "VDD.2", "VDD.3", "VDD.4"] ∧
    (injectVddTasks pVddF).tasks.map Task.predecessors =
      [[], ["T1.1"], ["VDD.1"], ["VDD.1"], ["VDD.2", "VDD.3"]] ∧
    pVddF.tasks.map Task.id = ["F1.1"] ∧
    ("T1.1" : String) ≠ "F1.1" := by
  decide

/-- C3 witness: the amended theorem applied to a project anchored at T1.1. -/
theorem claim_C3_witness :
    pVddT.vddEnabled = true ∧
    pVddT.tasks.any (fun t => t.id == "VDD.1") = false ∧
    ((injectVddTasks pVddT).tasks.map Task.id =
      (pVddT.tasks.take (vddInsertIdx pVddT.tasks)).map Task.id ++
        ["VDD.1", "VDD.2", "VDD.3", "VDD.4"] ++
        (pVddT.tasks.drop (vddInsertIdx pVddT.tasks)).map Task.id ∧
    (injectVddTasks pVddT).tasks.map Task.predecessors =
      (pVddT.tasks.take (vddInsertIdx pVddT.tasks)).map Task.predecessors ++
        [["T1.1"], ["VDD.1"], ["VDD.1"], ["VDD.2", "VDD.3"]] ++
        (pVddT.tasks.drop (vddInsertIdx pVddT.tasks)).map Task.predecessors) :=
  ⟨rfl, by decide, claim_C3 pVddT rfl (by decide)⟩

/-- C4: the Scheduler always terminates within its 3×N-pass budget (any
larger budget computes the same result), leaves computedEnd unset whenever
computedStart is unset, and on a 2-task mutual predecessor cycle leaves both
tasks entirely unscheduled.  Being a total Lean function, it raises no
exception on any input. -/
theorem claim_C4 : ∀ (cal : Cal) (p : Project),
    (∀ f : Nat, p.tasks.length * 3 ≤ f →
      calculateScheduleFuel cal f p = calculateSchedule cal p) ∧
    (∀ t ∈ (calculateSchedule cal p).tasks,
      t.computedStart = none → t.computedEnd = none) ∧
    (∀ tA tB : Task, p.tasks = [tA, tB] → tA.predecessors = [tB.id] →
      tB.predecessors = [tA.id] → ∀ t ∈ (calculateSchedule cal p).tasks,
      t.computedStart = none ∧ t.computedEnd = none) := by
  intro cal p
  refine ⟨?_, ?_, ?_⟩
  · intro f hf
    exact calculateScheduleFuel_stable cal p f hf
  · intro t ht hstart
    exact schedOk_none_of_start_none cal p.country t
      (calculateSchedule_schedOk cal p t ht) hstart
  · intro tA tB hp hA hB
    exact schedule_two_cycle cal p tA tB hp hA hB

/-- C4 witness: the theorem applied to a concrete 2-task mutual cycle. -/
theorem claim_C4_witness :
    pCycle.tasks.length * 3 ≤ 7 ∧
    calculateScheduleFuel cal0 7 pCycle = calculateSchedule cal0 pCycle ∧
    (∀ t ∈ (calculateSchedule cal0 pCycle).tasks,
      t.computedStart = none ∧ t.computedEnd = none) :=
  ⟨by decide, (claim_C4 cal0 pCycle).1 7 (by decide),
    (claim_C4 cal0 pCycle).2.2 (mkTask "A" 1 ["B"]) (mkTask "B" 1 ["A"]) rfl rfl rfl⟩

/-- C5 (amended): compressSchedule with no target dates restores
durationWeeks to originalDurationWeeks and compressionRatio to 1.0 for every
task whose originalDurationWeeks is positive.  (As frozen — "every task" —
the claim is false: the reset skips tasks with a non-positive baseline; see
the counterexample.) -/
theorem claim_C5 : ∀ (cal : Cal) (p : Project),
    ∀ t ∈ (compressSchedule cal p none none).tasks, 0 < t.originalDurationWeeks →
      t.durationWeeks = t.originalDurationWeeks ∧ t.compressionRatio = 1 := by
  intro cal p
  exact compress_none_restores cal p

/-- C5 counterexample: a task with originalDurationWeeks = 0,
durationWeeks = 1 and compressionRatio = 1/2 keeps its unrestored duration
and ratio after compressSchedule with no dates. -/
theorem claim_C5_counterexample :
    (compressSchedule cal0 pOrigZero none none).tasks.map (fun t => t.durationWeeks) =
      [1] ∧
    (compressSchedule cal0 pOrigZero none none).tasks.map
      (fun t => t.originalDurationWeeks) = [0] ∧
    (compressSchedule cal0 pOrigZero none none).tasks.map
      (fun t => t.compressionRatio) = [1/2] ∧
    ¬ ((1 : ℚ) = 0 ∧ (1/2 : ℚ) = 1) := by
  decide

/-- C5 witness: the amended theorem applied to a concrete scheduled task. -/
theorem claim_C5_witness :
    ({ mkTask "A" 1 [] with
       serialNumber := some 1, computedStart := some 1, computedEnd := some 8 } : Task) ∈
      (compressSchedule calH pChain none none).tasks ∧
    (0 : ℚ) < 1 ∧
    (({ mkTask "A" 1 [] with
        serialNumber := some 1, computedStart := some 1,
        computedEnd := some 8 } : Task).durationWeeks =
      ({ mkTask "A" 1 [] with
        serialNumber := some 1, computedStart := some 1,
        computedEnd := some 8 } : Task).originalDurationWeeks ∧
     ({ mkTask "A" 1 [] with
        serialNumber := some 1, computedStart := some 1,
        computedEnd := some 8 } : Task).compressionRatio = 1) :=
  ⟨by decide, by decide,
    claim_C5 calH pChain
      { mkTask "A" 1 [] with
        serialNumber := some 1, computedStart := some 1, computedEnd := some 8 }
      (by decide) (by decide)⟩

/-- C6: every scheduled task with positive durationWeeks spans exactly
floor(durationWeeks × 5) business days strictly after computedStart up to
and including computedEnd; in particular durationWeeks = 2 spans exactly
10 business days. -/
theorem claim_C6 : ∀ (cal : Cal) (p : Project), ∀ t ∈ (calculateSchedule cal p).tasks,
    ∀ s e : Int, t.computedStart = some s → t.computedEnd = some e →
    0 < t.durationWeeks →
    getBusinessDays cal p.country (s + 1) (e + 1) = (⌊t.durationWeeks * 5⌋).toNat ∧
      (t.durationWeeks = 2 → getBusinessDays cal p.country (s + 1) (e + 1) = 10) := by
  intro cal p t ht s e hs he hd
  have hok := calculateSchedule_schedOk cal p t ht
  have hcount := schedOk_count cal p.country t s e hok hs he hd
  refine ⟨hcount, ?_⟩
  intro h2
  rw [hcount, h2]
  decide

/-- C6 witness: the two-week task of the concrete chain spans 10 business
days (start day 8, end day 22, skipping two weekends). -/
theorem claim_C6_witness :
    ({ mkTask "B" 2 ["A"] with
       serialNumber := some 2, computedStart := some 8, computedEnd := some 22 } : Task) ∈
      (calculateSchedule calH pChain).tasks ∧
    (0 : ℚ) < 2 ∧
    (getBusinessDays calH pChain.country (8 + 1) (22 + 1) =
      (⌊(({ mkTask "B" 2 ["A"] with
          serialNumber := some 2, computedStart := some 8,
          computedEnd := some 22 } : Task).durationWeeks) * 5⌋).toNat ∧
     (({ mkTask "B" 2 ["A"] with
        serialNumber := some 2, computedStart := some 8,
        computedEnd := some 22 } : Task).durationWeeks = 2 →
      getBusinessDays calH pChain.country (8 + 1) (22 + 1) = 10)) :=
  ⟨by decide, by decide,
    claim_C6 calH pChain
      { mkTask "B" 2 ["A"] with
        serialNumber := some 2, computedStart := some 8, computedEnd := some 22 }
      (by decide) 8 22 rfl rfl (by decide)⟩

/-- C7: every computedStart assigned by the Scheduler is a business day:
neither a weekend day nor a holiday in any of the project's jurisdictions. -/
theorem claim_C7 : ∀ (cal : Cal) (p : Project), ∀ t ∈ (calculateSchedule cal p).tasks,
    ∀ s : Int, t.computedStart = some s →
    isWeekendDay s = false ∧ isHolidayDay cal p.country s = false := by
  intro cal p t ht s hs
  exact isBusinessDay_split cal p.country s
    (schedOk_start_business cal p.country t s (calculateSchedule_schedOk cal p t ht) hs)

/-- C7 witness: a start rolled off the day-0 US holiday onto business day 1. -/
theorem claim_C7_witness :
    ({ mkTask "A" 1 [] with
       serialNumber := some 1, computedStart := some 1, computedEnd := some 8 } : Task) ∈
      (calculateSchedule calH pChain).tasks ∧
    (isWeekendDay 1 = false ∧ isHolidayDay calH pChain.country 1 = false) :=
  ⟨by decide,
    claim_C7 calH pChain
      { mkTask "A" 1 [] with
        serialNumber := some 1, computedStart := some 1, computedEnd := some 8 }
      (by decide) 1 rfl⟩

/-- C8: getBusinessDays returns 0 whenever the end is not after the start,
and each compression block is skipped wholesale (project unchanged, so every
ratio keeps its reset value) when its standardDays or availableDays is zero,
so the guarded ratio division is never reached with a zero denominator. -/
theorem claim_C8 : ∀ (cal : Cal) (cs : List String),
    (∀ s e : Int, e ≤ s → getBusinessDays cal cs s e = 0) ∧
    (∀ (P : Project) (m : Int),
      block1Standard cal P = 0 ∨ block1Available cal P m = 0 →
      block1Apply cal P m = P) ∧
    (∀ (P : Project) (s ms : Int),
      getBusinessDays cal P.country ms (block2MaxEnd cal P) = 0 ∨
        getBusinessDays cal P.country ms s = 0 →
      block2ApplyWith cal P s ms = P) := by
  intro cal cs
  refine ⟨?_, ?_, ?_⟩
  · intro s e h
    exact getBusinessDays_zero_of_le cal cs s e h
  · intro P m h
    exact block1Apply_skip cal P m h
  · intro P s ms h
    exact block2ApplyWith_skip cal P s ms h

/-- C8 witness: a reversed interval counts zero business days, and block-1
compression on a project with no tasks (standardDays = 0) is skipped. -/
theorem claim_C8_witness :
    (3 : Int) ≤ 5 ∧ getBusinessDays cal0 [] 5 3 = 0 ∧
    (block1Standard cal0 pNoTasks = 0 ∨ block1Available cal0 pNoTasks 4 = 0) ∧
    block1Apply cal0 pNoTasks 4 = pNoTasks :=
  ⟨by decide, (claim_C8 cal0 []).1 5 3 (by decide), by decide,
    (claim_C8 cal0 []).2.1 pNoTasks 4 (by decide)⟩

/-- C9: injectVddTasks is idempotent: a second call returns its argument
unchanged, because either vddEnabled is false, or the sentinel VDD.1 already
exists (in particular right after a successful injection). -/
theorem claim_C9 : ∀ p : Project, injectVddTasks (injectVddTasks p) = injectVddTasks p := by
  intro p
  exact injectVdd_idem p

/-- C10 (implicit): every computedEnd assigned by the Scheduler is itself a
business day — zero-duration tasks copy the (business-day) start, and the
duration walk only ever stops on working days. -/
theorem claim_C10 : ∀ (cal : Cal) (p : Project), ∀ t ∈ (calculateSchedule cal p).tasks,
    ∀ e : Int, t.computedEnd = some e →
    isWeekendDay e = false ∧ isHolidayDay cal p.country e = false := by
  intro cal p t ht e he
  exact isBusinessDay_split cal p.country e
    (schedOk_end_business cal p.country t e (calculateSchedule_schedOk cal p t ht) he)

/-- C10 witness: the concrete chain's first task ends on business day 8. -/
theorem claim_C10_witness :
    ({ mkTask "A" 1 [] with
       serialNumber := some 1, computedStart := some 1, computedEnd := some 8 } : Task) ∈
      (calculateSchedule calH pChain).tasks ∧
    (isWeekendDay 8 = false ∧ isHolidayDay calH pChain.country 8 = false) :=
  ⟨by decide,
    claim_C10 calH pChain
      { mkTask "A" 1 [] with
        serialNumber := some 1, computedStart := some 1, computedEnd := some 8 }
      (by decide) 8 rfl⟩

end MAT
